import Mathlib

/-!
Verification of a small directed-graph library (`student_code.py`).

The library consists of three layered classes:
* `SortableDigraph` — adjacency storage (`adj : dict[node, dict[node, weight]]`,
  `node_values : dict[node, value]`) plus Kahn topological sort;
* `TraversableDigraph` — generator-based DFS and BFS;
* `DAG` — cycle-safe edge insertion guarded by a reachability probe.

Python dictionaries are embedded as association lists in insertion order
(`dictSet` updates a present key in place and appends an absent key at the
end, matching `d[k] = v` semantics).  Python `set`s that only ever grow are
embedded as lists with a membership guard.  `raise` is embedded as `Option`
(`none` = the call raises).  While-loops are embedded with an explicit fuel
argument that is provably sufficient, so the embedded functions compute.
-/

namespace StudentCode

variable {α : Type} {β : Type} {γ : Type} [DecidableEq α]

/-- Keys of an association list (a Python dict's iteration order). -/
def keys (d : List (α × γ)) : List α := d.map Prod.fst

/-- `d.get(k)` / `d[k]` on a Python dict: first binding of `k`. -/
def dictGet (d : List (α × γ)) (k : α) : Option γ :=
  match d with
  | [] => none
  | (a, v) :: rest => if a = k then some v else dictGet rest k

/-- `d[k] = v` on a Python dict: overwrite in place if present, else append. -/
def dictSet (d : List (α × γ)) (k : α) (v : γ) : List (α × γ) :=
  match d with
  | [] => [(k, v)]
  | (a, w) :: rest => if a = k then (a, v) :: rest else (a, w) :: dictSet rest k v

/-- The shared state of the three Python classes: the adjacency dict
(node ↦ (neighbor ↦ weight)) and the optional node-value dict. -/
structure Digraph (α β : Type) where
  adj : List (α × List (α × Int))
  node_values : List (α × β)

namespace SortableDigraph

/-- `SortableDigraph.__init__`. -/
def empty : Digraph α β := ⟨[], []⟩

/-- `SortableDigraph.add_node(node, value=None)`. -/
def add_node (g : Digraph α β) (node : α) (value : Option β) : Digraph α β :=
  { adj := if node ∈ keys g.adj then g.adj else dictSet g.adj node []
    node_values := match value with
      | some v => dictSet g.node_values node v
      | none => g.node_values }

/-- Lines 25-28 of `add_edge`: `if node not in self.adj: self.add_node(node)`. -/
def ensure_node (g : Digraph α β) (n : α) : Digraph α β :=
  if n ∈ keys g.adj then g else add_node g n none

/-- `SortableDigraph.add_edge(start, end, edge_weight=1)`: auto-insert both
endpoints, then `self.adj[start][end] = edge_weight`. -/
def add_edge (g : Digraph α β) (s e : α) (edge_weight : Int) : Digraph α β :=
  { ensure_node (ensure_node g s) e with
    adj := dictSet (ensure_node (ensure_node g s) e).adj s
      (dictSet ((dictGet (ensure_node (ensure_node g s) e).adj s).getD []) e edge_weight) }

/-- `SortableDigraph.get_nodes`. -/
def get_nodes (g : Digraph α β) : List α := keys g.adj

/-- `SortableDigraph.get_node_value` (`dict.get`: `None` if absent). -/
def get_node_value (g : Digraph α β) (node : α) : Option β :=
  dictGet g.node_values node

/-- `SortableDigraph.get_edge_weight`: `self.adj[start][end]`; a missing key
at either level raises `KeyError`, embedded as `none`. -/
def get_edge_weight (g : Digraph α β) (s e : α) : Option Int :=
  (dictGet g.adj s).bind (fun row => dictGet row e)

/-- `SortableDigraph.successors`: `list(self.adj.get(node, {}).keys())`. -/
def successors (g : Digraph α β) (node : α) : List α :=
  keys ((dictGet g.adj node).getD [])

/-- `SortableDigraph.predecessors`. -/
def predecessors (g : Digraph α β) (node : α) : List α :=
  keys (g.adj.filter (fun p => node ∈ keys p.2))

end SortableDigraph

/-- The edge relation stored in the adjacency mapping. -/
def HasEdge (g : Digraph α β) (u v : α) : Prop :=
  v ∈ SortableDigraph.successors g u

instance (g : Digraph α β) (u v : α) : Decidable (HasEdge g u v) :=
  decidable_of_iff (v ∈ SortableDigraph.successors g u) Iff.rfl

/-- Every node name occurring anywhere in the adjacency structure
(used only to bound loop fuel). -/
def allAdjNames (g : Digraph α β) : List α :=
  keys g.adj ++ (g.adj.map (fun p => keys p.2)).flatten

/-- Well-formedness of a graph state: dict keys are unique (true of every
Python dict) and every edge target is itself a node (maintained by
`add_edge`, which auto-inserts both endpoints; see `WF_empty`,
`WF_add_node`, `WF_add_edge`). -/
structure WF (g : Digraph α β) : Prop where
  nodup_nodes : (keys g.adj).Nodup
  nodup_rows : ∀ p ∈ g.adj, (keys p.2).Nodup
  targets_nodes : ∀ p ∈ g.adj, ∀ v ∈ keys p.2, v ∈ keys g.adj

instance (g : Digraph α β) : Decidable (WF g) :=
  decidable_of_iff
    ((keys g.adj).Nodup ∧ (∀ p ∈ g.adj, (keys p.2).Nodup) ∧
      (∀ p ∈ g.adj, ∀ v ∈ keys p.2, v ∈ keys g.adj))
    ⟨fun ⟨a, b, c⟩ => ⟨a, b, c⟩, fun ⟨a, b, c⟩ => ⟨a, b, c⟩⟩

/-- The shared inner loop of `dfs` and `_reachable`:
`for neighbor in self.adj.get(node, {}): if neighbor not in visited:
visited.add(neighbor); stack.append(neighbor)`.
The stack's top (Python's list end) is the Lean list head. -/
def pushUnvisited (row : List α) (vis stack : List α) : List α × List α :=
  row.foldl (fun p n => if n ∈ p.1 then p else (n :: p.1, n :: p.2)) (vis, stack)

namespace TraversableDigraph

/-- The while-loop of `TraversableDigraph.dfs`, with the `visited` set, the
`stack_path` list and the materialised generator output carried explicitly.
The fuel argument only bounds the iteration count; `dfs` supplies enough. -/
def dfsAux (g : Digraph α β) (start : α) :
    Nat → List α → List α → List α → List α → List α × List α × List α
  | 0, vis, _, path, out => (vis, path, out)
  | fuel+1, vis, stack, path, out =>
    match stack with
    | [] => (vis, path, out)
    | node :: rest =>
      dfsAux g start fuel
        (pushUnvisited (SortableDigraph.successors g node) vis rest).1
        (pushUnvisited (SortableDigraph.successors g node) vis rest).2
        (path ++ [node])
        (if node ∉ path ∧ node ≠ start then out ++ [node] else out)

/-- `TraversableDigraph.dfs(start)`, materialised: the list of yielded nodes. -/
def dfs (g : Digraph α β) (start : α) : List α :=
  (dfsAux g start ((allAdjNames g).length + 1) [start] [start] [] []).2.2

/-- The inner loop of `bfs`: each previously unvisited neighbor is marked,
enqueued (queue front is the list head, so enqueue appends) and yielded. -/
def bfsStep (row : List α) (vis queue out : List α) : List α × List α × List α :=
  row.foldl
    (fun p n => if n ∈ p.1 then p else (n :: p.1, p.2.1 ++ [n], p.2.2 ++ [n]))
    (vis, queue, out)

/-- The while-loop of `TraversableDigraph.bfs`. -/
def bfsAux (g : Digraph α β) : Nat → List α → List α → List α → List α × List α
  | 0, vis, _, out => (vis, out)
  | fuel+1, vis, queue, out =>
    match queue with
    | [] => (vis, out)
    | node :: rest =>
      bfsAux g fuel
        (bfsStep (SortableDigraph.successors g node) vis rest out).1
        (bfsStep (SortableDigraph.successors g node) vis rest out).2.1
        (bfsStep (SortableDigraph.successors g node) vis rest out).2.2

/-- `TraversableDigraph.bfs(start)`, materialised: the list of yielded nodes. -/
def bfs (g : Digraph α β) (start : α) : List α :=
  (bfsAux g ((allAdjNames g).length + 1) [start] [start] []).2

end TraversableDigraph

namespace DAG

/-- The while-loop of `DAG._reachable`. -/
def reachAux (g : Digraph α β) (target : α) : Nat → List α → List α → Bool
  | 0, _, _ => false
  | fuel+1, vis, stack =>
    match stack with
    | [] => false
    | node :: rest =>
      if node = target then true
      else
        reachAux g target fuel
          (pushUnvisited (SortableDigraph.successors g node) vis rest).1
          (pushUnvisited (SortableDigraph.successors g node) vis rest).2

/-- `DAG._reachable(start, target)`: stack-based search for `target` from
`start`; note that `start` itself is never pre-marked visited. -/
def reachable (g : Digraph α β) (start target : α) : Bool :=
  reachAux g target ((allAdjNames g).length + 1) [] [start]

/-- `DAG.add_edge(start, end, edge_weight)`: raises (`none`) when `start` is
already reachable from `end`, and otherwise delegates to the base
`SortableDigraph.add_edge` — the raise happens before any mutation. -/
def add_edge (g : Digraph α β) (s e : α) (w : Int) : Option (Digraph α β) :=
  if reachable g e s then none
  else some (SortableDigraph.add_edge g s e w)

end DAG

namespace SortableDigraph

/-- The in-degree dict of `top_sort` (lines 57-60), as a total function:
`{u: 0 for u in self.adj}` followed by `indegree[v] = indegree.get(v, 0) + 1`
over every stored edge.  (A total function with default `0` is faithful
because the Python code only ever reads `indegree` through `.get(v, 0)`,
through keys it has written, or through `.items()` — see `top_sort` below.) -/
def indeg0 (g : Digraph α β) : α → Int :=
  g.adj.foldl
    (fun f p => (keys p.2).foldl (fun f2 v => fun x => if x = v then f2 v + 1 else f2 x) f)
    (fun _ => 0)

/-- The inner loop of `top_sort` (lines 68-71): decrement the in-degree of
each successor of `u` and enqueue those that reach zero. -/
def kahnStep (g : Digraph α β) (u : α) (p : (α → Int) × List α) : (α → Int) × List α :=
  (successors g u).foldl
    (fun q v =>
      ((fun x => if x = v then q.1 v - 1 else q.1 x),
        if q.1 v - 1 = 0 then q.2 ++ [v] else q.2))
    p

/-- The while-loop of `top_sort` (lines 65-71); queue front = list head. -/
def kahnAux (g : Digraph α β) : Nat → (α → Int) → List α → List α → List α
  | 0, _, _, order => order
  | fuel+1, indeg, queue, order =>
    match queue with
    | [] => order
    | u :: rest =>
      kahnAux g fuel (kahnStep g u (indeg, rest)).1 (kahnStep g u (indeg, rest)).2
        (order ++ [u])

/-- `SortableDigraph.top_sort`: Kahn's algorithm; raises (`none`) when not
all nodes were ordered.  The initial queue is seeded from
`indegree.items()` in dict order: the keys of `indegree` are the keys of
`self.adj` (initialised to `0`) followed by any edge targets outside
`self.adj` — the latter always carry a value `≥ 1`, so the zero-filtered
seed is exactly the zero-filtered node list in insertion order. -/
def top_sort (g : Digraph α β) : Option (List α) :=
  let indeg := indeg0 g
  let queue := (keys g.adj).filter (fun u => indeg u = 0)
  let order := kahnAux g ((keys g.adj).length + 1) indeg queue []
  if order.length ≠ (keys g.adj).length then none else some order

end SortableDigraph

/-- The mutation interface of the `DAG` class.  `DAG` inherits `add_node`
from the base class and overrides `add_edge`. -/
inductive DagOp (α β : Type) where
  | addNode (n : α) (v : Option β)
  | addEdge (s e : α) (w : Int)

/-- Apply one `DAG` interface call; a raising `add_edge` leaves the graph
unchanged (the exception propagates before any mutation). -/
def applyDagOp (g : Digraph α β) : DagOp α β → Digraph α β
  | .addNode n v => SortableDigraph.add_node g n v
  | .addEdge s e w =>
    match DAG.add_edge g s e w with
    | none => g
    | some g' => g'

/-- The graph obtained by a sequence of `DAG` interface calls on a fresh
`DAG()`. -/
def runDAG (ops : List (DagOp α β)) : Digraph α β :=
  ops.foldl applyDagOp SortableDigraph.empty

/-- Reachability (zero or more stored edges). -/
def Reaches (g : Digraph α β) : α → α → Prop :=
  Relation.ReflTransGen (HasEdge g)

/-- Reachability by one or more stored edges. -/
def ReachesPlus (g : Digraph α β) : α → α → Prop :=
  Relation.TransGen (HasEdge g)

/-- The transitive closure of the adjacency relation contains no cycle. -/
def Acyclic (g : Digraph α β) : Prop :=
  ∀ x : α, ¬ ReachesPlus g x x

/-- Directed paths of a given hop count. -/
inductive PathLen (g : Digraph α β) : α → α → Nat → Prop where
  | refl (u : α) : PathLen g u u 0
  | step {u v w : α} {n : Nat} :
      HasEdge g u v → PathLen g v w n → PathLen g u w (n + 1)

/-- `v` lies within `n` hops of `s` (so the hop distance of `v` is the least
such `n`). -/
def DistLe (g : Digraph α β) (s v : α) (n : Nat) : Prop :=
  ∃ m, m ≤ n ∧ PathLen g s v m

/-- The hop distance from `s` to `a` is at most that from `s` to `b`
(vacuously true when `b` is unreachable). -/
def HopLe (g : Digraph α β) (s a b : α) : Prop :=
  ∀ n, DistLe g s b n → DistLe g s a n

/-- The hop distance of `a` is at most one more than that of `b`. -/
def HopSuccLe (g : Digraph α β) (s a b : α) : Prop :=
  ∀ n, DistLe g s b n → DistLe g s a (n + 1)

/-- The hop distance of `a` is strictly less than that of `b`. -/
def HopLt (g : Digraph α β) (s a b : α) : Prop :=
  ∀ n, DistLe g s b n → ∃ m, m < n ∧ DistLe g s a m

/-- Fuel bound for the visited/stack loops: unvisited name count plus
container size.  Each loop iteration decreases it by exactly one. -/
def stackMeasure (g : Digraph α β) (vis stack : List α) : Nat :=
  ((allAdjNames g).filter (fun x => x ∉ vis)).length + stack.length

/-- Fuel bound for the `top_sort` while-loop. -/
def kahnMeasure (g : Digraph α β) (queue order : List α) : Nat :=
  ((keys g.adj).filter (fun x => x ∉ order ++ queue)).length + queue.length

/-- The two-edge chain A→B→C of the spec's `addEdge` rejection scenario. -/
def exChain : Digraph String Unit :=
  SortableDigraph.add_edge
    (SortableDigraph.add_edge SortableDigraph.empty "A" "B" 1) "B" "C" 1

/-- The diamond A→B, A→C, B→D, C→D of the spec's scenarios, built by
`add_edge` calls in that order. -/
def exDiamond : Digraph String Unit :=
  SortableDigraph.add_edge (SortableDigraph.add_edge (SortableDigraph.add_edge
    (SortableDigraph.add_edge SortableDigraph.empty "A" "B" 1) "A" "C" 1) "B" "D" 1) "C" "D" 1

/-- The two-node cycle A→B→A, built through the base class's unguarded
`add_edge`. -/
def exCycle : Digraph String Unit :=
  SortableDigraph.add_edge
    (SortableDigraph.add_edge SortableDigraph.empty "A" "B" 1) "B" "A" 1

theorem dictGet_isSome_iff_mem_keys (d : List (α × γ)) (k : α) :
    (dictGet d k).isSome = true ↔ k ∈ keys d := by
  induction d with
  | nil => simp [dictGet, keys]
  | cons p rest ih =>
    obtain ⟨a, v⟩ := p
    by_cases h : a = k <;> simp [dictGet, keys, h, ih] <;> tauto


theorem dictGet_eq_none_iff_not_mem_keys (d : List (α × γ)) (k : α) :
    dictGet d k = none ↔ k ∉ keys d := by
  rw [← dictGet_isSome_iff_mem_keys]
  cases dictGet d k <;> simp

theorem keys_dictSet (d : List (α × γ)) (k : α) (v : γ) :
    keys (dictSet d k v) = if k ∈ keys d then keys d else keys d ++ [k] := by
  induction d with
  | nil => simp [dictSet, keys]
  | cons p rest ih =>
    obtain ⟨a, w⟩ := p
    by_cases h : a = k
    · subst h; simp [dictSet, keys]
    · have hka : k ≠ a := fun hh => h hh.symm
      simp only [dictSet, if_neg h, keys, List.map_cons, List.mem_cons, hka, false_or]
      unfold keys at ih
      by_cases hk : k ∈ List.map Prod.fst rest
      · simp only [hk, if_true] at ih ⊢
        simp [ih]
      · simp only [hk, if_false] at ih ⊢
        simp [ih]

theorem dictGet_dictSet_self (d : List (α × γ)) (k : α) (v : γ) :
    dictGet (dictSet d k v) k = some v := by
  induction d with
  | nil => simp [dictSet, dictGet]
  | cons p rest ih =>
    obtain ⟨a, w⟩ := p
    by_cases h : a = k <;> simp [dictSet, dictGet, h, ih]

theorem dictGet_dictSet_ne (d : List (α × γ)) (k k' : α) (v : γ) (h : k ≠ k') :
    dictGet (dictSet d k v) k' = dictGet d k' := by
  induction d with
  | nil => simp [dictSet, dictGet, h]
  | cons p rest ih =>
    obtain ⟨a, w⟩ := p
    by_cases ha : a = k
    · subst ha; simp [dictSet, dictGet, h]
    · by_cases ha' : a = k'
      · subst ha'; simp [dictSet, dictGet, ha]
      · simp [dictSet, dictGet, ha, ha', ih]

theorem nodup_keys_dictSet (d : List (α × γ)) (k : α) (v : γ)
    (h : (keys d).Nodup) : (keys (dictSet d k v)).Nodup := by
  rw [keys_dictSet]
  by_cases hk : k ∈ keys d
  · simpa [hk]
  · simp only [hk, if_false]
    simpa [List.nodup_append, hk] using h

/-! ### Generic counting lemmas for the loop-fuel bounds -/

theorem countP_split (U : List α) (p q : α → Bool) :
    U.countP p = U.countP (fun a => p a && q a) + U.countP (fun a => p a && !q a) := by
  induction U with
  | nil => simp
  | cons a rest ih =>
    by_cases hp : p a = true <;> by_cases hq : q a = true <;>
      simp [List.countP_cons, hp, hq, ih] <;> omega

/-- Adding the fresh, pairwise-distinct elements `L` to the visited set
shrinks the unvisited count by at least `L.length`. -/
theorem length_filter_not_mem_append (U L vis : List α)
    (hnd : L.Nodup) (hU : ∀ x ∈ L, x ∈ U) (hv : ∀ x ∈ L, x ∉ vis) :
    (U.filter (fun x => x ∉ L ++ vis)).length + L.length ≤
      (U.filter (fun x => x ∉ vis)).length := by
  have hsplit := countP_split U (fun x => decide (x ∉ vis)) (fun x => decide (x ∈ L))
  have hA : (U.filter (fun x => x ∉ L ++ vis)).length =
      U.countP (fun x => decide (x ∉ vis) && !decide (x ∈ L)) := by
    rw [← List.countP_eq_length_filter]
    refine List.countP_congr ?_
    intro x _
    by_cases h1 : x ∈ L <;> by_cases h2 : x ∈ vis <;> simp [h1, h2]
  have hB : L.length ≤ U.countP (fun x => decide (x ∉ vis) && decide (x ∈ L)) := by
    have hsub : L ⊆ U.filter (fun x => decide (x ∉ vis) && decide (x ∈ L)) := by
      intro x hx
      rw [List.mem_filter]
      exact ⟨hU x hx, by simp [hv x hx, hx]⟩
    have hle := (hnd.subperm hsub).length_le
    rwa [← List.countP_eq_length_filter] at hle
  rw [hA]
  rw [← List.countP_eq_length_filter]
  omega

theorem length_filter_not_mem_nil (U : List α) :
    (U.filter (fun x => x ∉ ([] : List α))).length = U.length := by
  simp

/-! ### The visited/stack inner loop -/



theorem pushUnvisited_spec (row vis stack : List α) :
    ∃ L : List α,
      (pushUnvisited row vis stack).1 = L ++ vis ∧
      (pushUnvisited row vis stack).2 = L ++ stack ∧
      L.Nodup ∧
      (∀ x ∈ L, x ∈ row ∧ x ∉ vis) ∧
      (∀ x ∈ row, x ∈ L ∨ x ∈ vis) := by
  induction row generalizing vis stack with
  | nil => exact ⟨[], rfl, rfl, List.nodup_nil, by simp, by simp⟩
  | cons n rest ih =>
    by_cases h : n ∈ vis
    · have hstep : pushUnvisited (n :: rest) vis stack = pushUnvisited rest vis stack := by
        simp [pushUnvisited, h]
      obtain ⟨L, h1, h2, h3, h4, h5⟩ := ih vis stack
      refine ⟨L, by rw [hstep]; exact h1, by rw [hstep]; exact h2, h3, ?_, ?_⟩
      · exact fun x hx => ⟨List.mem_cons_of_mem _ (h4 x hx).1, (h4 x hx).2⟩
      · intro x hx
        rcases List.mem_cons.mp hx with hx | hx
        · subst hx; exact Or.inr h
        · exact h5 x hx
    · have hstep : pushUnvisited (n :: rest) vis stack =
          pushUnvisited rest (n :: vis) (n :: stack) := by
        simp [pushUnvisited, h]
      obtain ⟨L, h1, h2, h3, h4, h5⟩ := ih (n :: vis) (n :: stack)
      have hnL : n ∉ L := fun hn => (h4 n hn).2 (List.mem_cons_self n vis)
      refine ⟨L ++ [n], ?_, ?_, ?_, ?_, ?_⟩
      · rw [hstep, h1]; simp
      · rw [hstep, h2]; simp
      · simpa [List.nodup_append, hnL] using h3
      · intro x hx
        rcases List.mem_append.mp hx with hx | hx
        · obtain ⟨hxr, hxv⟩ := h4 x hx
          exact ⟨List.mem_cons_of_mem _ hxr, fun hh => hxv (List.mem_cons_of_mem _ hh)⟩
        · rcases List.mem_singleton.mp hx with rfl
          exact ⟨List.mem_cons_self _ _, h⟩
      · intro x hx
        rcases List.mem_cons.mp hx with rfl | hx
        · exact Or.inl (by simp)
        · rcases h5 x hx with hx' | hx'
          · exact Or.inl (List.mem_append_left _ hx')
          · rcases List.mem_cons.mp hx' with rfl | hx'
            · exact Or.inl (by simp)
            · exact Or.inr hx'

theorem dictGet_eq_some_mem (d : List (α × γ)) (k : α) (v : γ)
    (h : dictGet d k = some v) : (k, v) ∈ d := by
  induction d with
  | nil => simp [dictGet] at h
  | cons p rest ih =>
    obtain ⟨a, w⟩ := p
    by_cases ha : a = k
    · subst ha; simp [dictGet] at h; simp [h]
    · simp [dictGet, ha] at h
      exact List.mem_cons_of_mem _ (ih h)

theorem successors_subset_allAdjNames (g : Digraph α β) (u : α) :
    ∀ x ∈ SortableDigraph.successors g u, x ∈ allAdjNames g := by
  intro x hx
  unfold SortableDigraph.successors at hx
  cases hget : dictGet g.adj u with
  | none => rw [hget] at hx; simp [keys] at hx
  | some row =>
    rw [hget] at hx
    have hmem : (u, row) ∈ g.adj := dictGet_eq_some_mem _ _ _ hget
    unfold allAdjNames
    refine List.mem_append_right _ ?_
    rw [List.mem_flatten]
    exact ⟨keys row, List.mem_map_of_mem _ hmem, hx⟩

/-- A set of nodes containing `s` and closed under stored edges contains
everything reachable from `s`. -/
theorem reaches_mem_closed (g : Digraph α β) (S : α → Prop) (s t : α)
    (hs : S s) (hcl : ∀ u v, S u → HasEdge g u v → S v)
    (h : Reaches g s t) : S t := by
  induction h with
  | refl => exact hs
  | tail _ hedge ih => exact hcl _ _ ih hedge

/-! ### Correctness of `DAG._reachable` -/

namespace DAG

theorem reachAux_sound (g : Digraph α β) (origin target : α) :
    ∀ fuel vis stack, (∀ x ∈ stack, Reaches g origin x) →
      reachAux g target fuel vis stack = true → Reaches g origin target := by
  intro fuel
  induction fuel with
  | zero => intro vis stack _ h; simp [reachAux] at h
  | succ fuel ih =>
    intro vis stack hstack h
    match stack with
    | [] => simp [reachAux] at h
    | node :: rest =>
      by_cases ht : node = target
      · subst ht; exact hstack node (List.mem_cons_self _ _)
      · rw [reachAux, if_neg ht] at h
        obtain ⟨L, h1, h2, _, h4, _⟩ :=
          pushUnvisited_spec (SortableDigraph.successors g node) vis rest
        rw [h2] at h
        refine ih _ _ ?_ h
        intro x hx
        rcases List.mem_append.mp hx with hx | hx
        · exact (hstack node (List.mem_cons_self _ _)).tail (h4 x hx).1
        · exact hstack x (List.mem_cons_of_mem _ hx)

theorem reachAux_complete (g : Digraph α β) (origin target : α) :
    ∀ fuel vis stack,
      stackMeasure g vis stack ≤ fuel →
      (∀ x ∈ stack, x ∈ vis ∨ x = origin) →
      (∀ v, (v ∈ vis ∨ v = origin) →
        v ∈ stack ∨ (∀ w ∈ SortableDigraph.successors g v, w ∈ vis)) →
      (∀ v, (v ∈ vis ∨ v = origin) → v ∈ stack ∨ v ≠ target) →
      reachAux g target fuel vis stack = false →
      ¬ Reaches g origin target := by
  intro fuel
  induction fuel with
  | zero =>
    intro vis stack hfuel hst hcl hnt _
    have hempty : stack = [] := by
      unfold stackMeasure at hfuel
      cases stack with
      | nil => rfl
      | cons a b =>
        exfalso
        rw [List.length_cons] at hfuel
        omega
    subst hempty
    intro hreach
    have hmem : target ∈ vis ∨ target = origin := by
      refine reaches_mem_closed g (fun v => v ∈ vis ∨ v = origin) origin target
        (Or.inr rfl) ?_ hreach
      intro u v hu hedge
      rcases hcl u hu with h | h
      · simp at h
      · exact Or.inl (h v hedge)
    rcases hnt target hmem with h | h
    · simp at h
    · exact h rfl
  | succ fuel ih =>
    intro vis stack hfuel hst hcl hnt hfalse
    match stack with
    | [] =>
      -- same closure argument as the fuel-exhausted case
      intro hreach
      have hmem : target ∈ vis ∨ target = origin := by
        refine reaches_mem_closed g (fun v => v ∈ vis ∨ v = origin) origin target
          (Or.inr rfl) ?_ hreach
        intro u v hu hedge
        rcases hcl u hu with h | h
        · simp at h
        · exact Or.inl (h v hedge)
      rcases hnt target hmem with h | h
      · simp at h
      · exact h rfl
    | node :: rest =>
      by_cases ht : node = target
      · rw [reachAux, if_pos ht] at hfalse; simp at hfalse
      · rw [reachAux, if_neg ht] at hfalse
        obtain ⟨L, h1, h2, h3, h4, h5⟩ :=
          pushUnvisited_spec (SortableDigraph.successors g node) vis rest
        rw [h1, h2] at hfalse
        have hLnames : ∀ x ∈ L, x ∈ allAdjNames g := fun x hx =>
          successors_subset_allAdjNames g node x (h4 x hx).1
        have hmeas : stackMeasure g (L ++ vis) (L ++ rest) ≤ fuel := by
          unfold stackMeasure at hfuel ⊢
          have := length_filter_not_mem_append (allAdjNames g) L vis h3 hLnames
            (fun x hx => (h4 x hx).2)
          simp only [List.length_cons] at hfuel
          simp only [List.length_append]
          omega
        refine ih (L ++ vis) (L ++ rest) hmeas ?_ ?_ ?_ hfalse
        · intro x hx
          rcases List.mem_append.mp hx with hx | hx
          · exact Or.inl (List.mem_append_left _ hx)
          · rcases hst x (List.mem_cons_of_mem _ hx) with h | h
            · exact Or.inl (List.mem_append_right _ h)
            · exact Or.inr h
        · intro v hv
          have hv' : v ∈ L ∨ (v ∈ vis ∨ v = origin) := by
            rcases hv with hv | hv
            · rcases List.mem_append.mp hv with hv | hv
              · exact Or.inl hv
              · exact Or.inr (Or.inl hv)
            · exact Or.inr (Or.inr hv)
          rcases hv' with hv' | hv'
          · exact Or.inl (List.mem_append_left _ hv')
          · rcases hcl v hv' with h | h
            · rcases List.mem_cons.mp h with rfl | h
              · refine Or.inr ?_
                intro w hw
                rcases h5 w hw with hw' | hw'
                · exact List.mem_append_left _ hw'
                · exact List.mem_append_right _ hw'
              · exact Or.inl (List.mem_append_right _ h)
            · exact Or.inr fun w hw => List.mem_append_right _ (h w hw)
        · intro v hv
          have hv' : v ∈ L ∨ (v ∈ vis ∨ v = origin) := by
            rcases hv with hv | hv
            · rcases List.mem_append.mp hv with hv | hv
              · exact Or.inl hv
              · exact Or.inr (Or.inl hv)
            · exact Or.inr (Or.inr hv)
          rcases hv' with hv' | hv'
          · exact Or.inl (List.mem_append_left _ hv')
          · rcases hnt v hv' with h | h
            · rcases List.mem_cons.mp h with rfl | h
              · exact Or.inr ht
              · exact Or.inl (List.mem_append_right _ h)
            · exact Or.inr h

/-- `DAG._reachable(start, target)` decides reachability by zero or more
stored edges. -/
theorem reachable_iff (g : Digraph α β) (s t : α) :
    reachable g s t = true ↔ Reaches g s t := by
  constructor
  · intro h
    exact reachAux_sound g s t _ [] [s]
      (by intro x hx; rcases List.mem_singleton.mp hx with rfl; exact .refl) h
  · intro hreach
    by_contra h
    have hfalse : reachable g s t = false := by
      cases hr : reachable g s t
      · rfl
      · exact absurd hr h
    unfold reachable at hfalse
    refine reachAux_complete g s t _ [] [s] ?_ ?_ ?_ ?_ hfalse hreach
    · unfold stackMeasure
      rw [length_filter_not_mem_nil]
      simp
    · intro x hx; rcases List.mem_singleton.mp hx with rfl; exact Or.inr rfl
    · intro v hv
      rcases hv with hv | hv
      · simp at hv
      · subst hv; exact Or.inl (List.mem_singleton_self _)
    · intro v hv
      rcases hv with hv | hv
      · simp at hv
      · subst hv; exact Or.inl (List.mem_singleton_self _)

end DAG

/-! ### Structural effect of `add_node` and `add_edge` -/

theorem WF.edge_target_mem {g : Digraph α β} (hwf : WF g) {u v : α}
    (h : HasEdge g u v) : v ∈ keys g.adj := by
  unfold HasEdge SortableDigraph.successors at h
  cases hget : dictGet g.adj u with
  | none => rw [hget] at h; simp [keys] at h
  | some row =>
    rw [hget] at h
    exact hwf.targets_nodes (u, row) (dictGet_eq_some_mem _ _ _ hget) v h

namespace SortableDigraph

theorem successors_add_node (g : Digraph α β) (n : α) (val : Option β) (u : α) :
    successors (add_node g n val) u = successors g u := by
  unfold successors add_node
  by_cases h : n ∈ keys g.adj
  · simp [h]
  · simp only [h, if_false]
    by_cases hu : n = u
    · rw [← hu, dictGet_dictSet_self, (dictGet_eq_none_iff_not_mem_keys g.adj n).mpr h]
      simp [keys]
    · rw [dictGet_dictSet_ne _ _ _ _ hu]

theorem mem_keys_add_node (g : Digraph α β) (n : α) (val : Option β) (x : α) :
    x ∈ keys (add_node g n val).adj ↔ x ∈ keys g.adj ∨ x = n := by
  unfold add_node
  by_cases h : n ∈ keys g.adj
  · simp only [h, if_true]
    constructor
    · exact Or.inl
    · rintro (hx | rfl)
      · exact hx
      · exact h
  · simp only [h, if_false, keys_dictSet, h, if_false]
    simp

theorem node_values_add_node_none (g : Digraph α β) (n : α) :
    (add_node g n none).node_values = g.node_values := rfl

theorem get_edge_weight_add_node (g : Digraph α β) (n : α) (val : Option β) (a b : α) :
    get_edge_weight (add_node g n val) a b = get_edge_weight g a b := by
  unfold get_edge_weight add_node
  by_cases h : n ∈ keys g.adj
  · simp [h]
  · simp only [h, if_false]
    by_cases ha : n = a
    · subst ha
      rw [dictGet_dictSet_self, (dictGet_eq_none_iff_not_mem_keys g.adj n).mpr h]
      simp [dictGet]
    · rw [dictGet_dictSet_ne _ _ _ _ ha]

theorem successors_ensure_node (g : Digraph α β) (n u : α) :
    successors (ensure_node g n) u = successors g u := by
  unfold ensure_node
  by_cases h : n ∈ keys g.adj
  · simp [h]
  · simp [h, successors_add_node]

theorem mem_keys_ensure_node (g : Digraph α β) (n x : α) :
    x ∈ keys (ensure_node g n).adj ↔ x ∈ keys g.adj ∨ x = n := by
  unfold ensure_node
  by_cases h : n ∈ keys g.adj
  · simp only [h, if_true]
    exact ⟨Or.inl, fun hx => hx.elim id fun he => he ▸ h⟩
  · simp only [h, if_false]
    exact mem_keys_add_node g n none x

theorem get_edge_weight_ensure_node (g : Digraph α β) (n a b : α) :
    get_edge_weight (ensure_node g n) a b = get_edge_weight g a b := by
  unfold ensure_node
  by_cases h : n ∈ keys g.adj
  · simp [h]
  · simp [h, get_edge_weight_add_node]

theorem node_values_ensure_node (g : Digraph α β) (n : α) :
    (ensure_node g n).node_values = g.node_values := by
  unfold ensure_node
  by_cases h : n ∈ keys g.adj <;> simp [h, add_node]

theorem s_mem_keys_mid (g : Digraph α β) (s e : α) :
    s ∈ keys (ensure_node (ensure_node g s) e).adj :=
  (mem_keys_ensure_node _ e s).mpr
    (Or.inl ((mem_keys_ensure_node g s s).mpr (Or.inr rfl)))

theorem successors_add_edge (g : Digraph α β) (s e : α) (w : Int) (u : α) :
    successors (add_edge g s e w) u =
      if u = s then
        (if e ∈ successors g s then successors g s else successors g s ++ [e])
      else successors g u := by
  have hsucc2 : ∀ x, successors (ensure_node (ensure_node g s) e) x = successors g x := by
    intro x
    rw [successors_ensure_node, successors_ensure_node]
  by_cases hu : u = s
  · subst hu
    show keys ((dictGet (dictSet (ensure_node (ensure_node g u) e).adj u
        (dictSet ((dictGet (ensure_node (ensure_node g u) e).adj u).getD []) e w)) u).getD []) = _
    rw [dictGet_dictSet_self]
    have hrow : keys ((dictGet (ensure_node (ensure_node g u) e).adj u).getD []) =
        successors g u := hsucc2 u
    rw [if_pos rfl, Option.getD_some, keys_dictSet, hrow]
  · show keys ((dictGet (dictSet (ensure_node (ensure_node g s) e).adj s _) u).getD []) = _
    rw [dictGet_dictSet_ne _ _ _ _ fun h => hu h.symm, if_neg hu]
    exact hsucc2 u

theorem hasEdge_add_edge_iff (g : Digraph α β) (s e : α) (w : Int) (u v : α) :
    HasEdge (add_edge g s e w) u v ↔ HasEdge g u v ∨ (u = s ∧ v = e) := by
  unfold HasEdge
  rw [successors_add_edge]
  by_cases hu : u = s
  · subst hu
    rw [if_pos rfl]
    by_cases he : e ∈ successors g u
    · rw [if_pos he]
      constructor
      · exact Or.inl
      · rintro (h | ⟨-, rfl⟩)
        · exact h
        · exact he
    · rw [if_neg he, List.mem_append, List.mem_singleton]
      constructor
      · rintro (h | rfl)
        · exact Or.inl h
        · exact Or.inr ⟨rfl, rfl⟩
      · rintro (h | ⟨-, rfl⟩)
        · exact Or.inl h
        · exact Or.inr rfl
  · rw [if_neg hu]
    constructor
    · exact Or.inl
    · rintro (h | ⟨rfl, rfl⟩)
      · exact h
      · exact absurd rfl hu

theorem mem_keys_add_edge (g : Digraph α β) (s e : α) (w : Int) (x : α) :
    x ∈ keys (add_edge g s e w).adj ↔ x ∈ keys g.adj ∨ x = s ∨ x = e := by
  have hkeys2 : ∀ y, y ∈ keys (ensure_node (ensure_node g s) e).adj ↔
      (y ∈ keys g.adj ∨ y = s) ∨ y = e := by
    intro y
    rw [mem_keys_ensure_node, mem_keys_ensure_node]
  show x ∈ keys (dictSet (ensure_node (ensure_node g s) e).adj s _) ↔ _
  rw [keys_dictSet, if_pos (s_mem_keys_mid g s e), hkeys2]
  tauto

theorem node_values_add_edge (g : Digraph α β) (s e : α) (w : Int) :
    (add_edge g s e w).node_values = g.node_values := by
  show (ensure_node (ensure_node g s) e).node_values = g.node_values
  rw [node_values_ensure_node, node_values_ensure_node]

theorem get_edge_weight_add_edge_self (g : Digraph α β) (s e : α) (w : Int) :
    get_edge_weight (add_edge g s e w) s e = some w := by
  show ((dictGet (dictSet (ensure_node (ensure_node g s) e).adj s _) s).bind _) = some w
  rw [dictGet_dictSet_self, Option.some_bind]
  exact dictGet_dictSet_self _ _ _

theorem get_edge_weight_add_edge_frame (g : Digraph α β) (s e : α) (w : Int)
    (a b : α) (h : ¬(a = s ∧ b = e)) :
    get_edge_weight (add_edge g s e w) a b = get_edge_weight g a b := by
  have hmid := s_mem_keys_mid g s e
  have hw2 : get_edge_weight (ensure_node (ensure_node g s) e) a b =
      get_edge_weight g a b := by
    rw [get_edge_weight_ensure_node, get_edge_weight_ensure_node]
  by_cases ha : a = s
  · have hb : b ≠ e := fun hb => h ⟨ha, hb⟩
    subst ha
    rw [← hw2]
    show ((dictGet (dictSet (ensure_node (ensure_node g a) e).adj a _) a).bind
        (fun row => dictGet row b)) = _
    rw [dictGet_dictSet_self, Option.some_bind,
      dictGet_dictSet_ne _ _ _ _ fun hh => hb hh.symm]
    obtain ⟨row, hrow⟩ : ∃ row, dictGet (ensure_node (ensure_node g a) e).adj a = some row := by
      have hsome := (dictGet_isSome_iff_mem_keys (ensure_node (ensure_node g a) e).adj a).mpr hmid
      cases hg : dictGet (ensure_node (ensure_node g a) e).adj a
      · rw [hg] at hsome; simp at hsome
      · exact ⟨_, rfl⟩
    unfold get_edge_weight
    rw [hrow]
    simp
  · rw [← hw2]
    show ((dictGet (dictSet (ensure_node (ensure_node g s) e).adj s _) a).bind
        (fun row => dictGet row b)) = _
    rw [dictGet_dictSet_ne _ _ _ _ fun hh => ha hh.symm]
    rfl

end SortableDigraph

/-! ### Well-formedness is an invariant of the class interface -/

theorem mem_dictSet (d : List (α × γ)) (k : α) (v : γ) (p : α × γ)
    (h : p ∈ dictSet d k v) : p = (k, v) ∨ p ∈ d := by
  induction d with
  | nil =>
    simp [dictSet] at h
    simp [h]
  | cons q rest ih =>
    obtain ⟨a, w⟩ := q
    by_cases ha : a = k
    · subst ha
      simp only [dictSet, eq_self_iff_true, if_true, List.mem_cons] at h
      rcases h with h | h
      · exact Or.inl h
      · exact Or.inr (List.mem_cons_of_mem _ h)
    · simp only [dictSet, if_neg ha, List.mem_cons] at h
      rcases h with h | h
      · exact Or.inr (by simp [h])
      · rcases ih h with h | h
        · exact Or.inl h
        · exact Or.inr (List.mem_cons_of_mem _ h)

theorem WF_empty : WF (SortableDigraph.empty : Digraph α β) := by
  constructor <;> simp [SortableDigraph.empty, keys]

theorem WF_add_node (g : Digraph α β) (n : α) (val : Option β) (hwf : WF g) :
    WF (SortableDigraph.add_node g n val) := by
  constructor
  · by_cases h : n ∈ keys g.adj
    · simpa [SortableDigraph.add_node, h] using hwf.nodup_nodes
    · simp only [SortableDigraph.add_node, h, if_false]
      exact nodup_keys_dictSet _ _ _ hwf.nodup_nodes
  · intro p hp
    by_cases h : n ∈ keys g.adj
    · exact hwf.nodup_rows p (by simpa [SortableDigraph.add_node, h] using hp)
    · simp only [SortableDigraph.add_node, h, if_false] at hp
      rcases mem_dictSet _ _ _ _ hp with rfl | hp
      · simp [keys]
      · exact hwf.nodup_rows p hp
  · intro p hp v hv
    rw [SortableDigraph.mem_keys_add_node]
    by_cases h : n ∈ keys g.adj
    · exact Or.inl (hwf.targets_nodes p (by simpa [SortableDigraph.add_node, h] using hp) v hv)
    · simp only [SortableDigraph.add_node, h, if_false] at hp
      rcases mem_dictSet _ _ _ _ hp with rfl | hp
      · simp [keys] at hv
      · exact Or.inl (hwf.targets_nodes p hp v hv)

theorem WF_ensure_node (g : Digraph α β) (n : α) (hwf : WF g) :
    WF (SortableDigraph.ensure_node g n) := by
  unfold SortableDigraph.ensure_node
  by_cases h : n ∈ keys g.adj
  · simpa [h]
  · simp only [h, if_false]
    exact WF_add_node g n none hwf

theorem WF_add_edge (g : Digraph α β) (s e : α) (w : Int) (hwf : WF g) :
    WF (SortableDigraph.add_edge g s e w) := by
  have hwf2 : WF (SortableDigraph.ensure_node (SortableDigraph.ensure_node g s) e) :=
    WF_ensure_node _ e (WF_ensure_node g s hwf)
  have hmid := SortableDigraph.s_mem_keys_mid g s e
  have hkeys : keys (SortableDigraph.add_edge g s e w).adj =
      keys (SortableDigraph.ensure_node (SortableDigraph.ensure_node g s) e).adj := by
    show keys (dictSet _ s _) = _
    rw [keys_dictSet, if_pos hmid]
  constructor
  · rw [hkeys]; exact hwf2.nodup_nodes
  · intro p hp
    have hp' : p ∈ dictSet (SortableDigraph.ensure_node (SortableDigraph.ensure_node g s) e).adj
        s (dictSet ((dictGet (SortableDigraph.ensure_node (SortableDigraph.ensure_node g s) e).adj
          s).getD []) e w) := hp
    rcases mem_dictSet _ _ _ _ hp' with rfl | hp''
    · refine nodup_keys_dictSet _ _ _ ?_
      cases hget : dictGet (SortableDigraph.ensure_node (SortableDigraph.ensure_node g s) e).adj s with
      | none => simp [keys]
      | some row =>
        simpa using hwf2.nodup_rows (s, row) (dictGet_eq_some_mem _ _ _ hget)
    · exact hwf2.nodup_rows p hp''
  · intro p hp v hv
    rw [hkeys]
    have hp' : p ∈ dictSet (SortableDigraph.ensure_node (SortableDigraph.ensure_node g s) e).adj
        s (dictSet ((dictGet (SortableDigraph.ensure_node (SortableDigraph.ensure_node g s) e).adj
          s).getD []) e w) := hp
    rcases mem_dictSet _ _ _ _ hp' with rfl | hp''
    · simp only [keys_dictSet] at hv
      have hvor : v ∈ keys ((dictGet (SortableDigraph.ensure_node
          (SortableDigraph.ensure_node g s) e).adj s).getD []) ∨ v = e := by
        by_cases hh : e ∈ keys ((dictGet (SortableDigraph.ensure_node
            (SortableDigraph.ensure_node g s) e).adj s).getD [])
        · rw [if_pos hh] at hv; exact Or.inl hv
        · rw [if_neg hh] at hv
          rcases List.mem_append.mp hv with hv | hv
          · exact Or.inl hv
          · exact Or.inr (List.mem_singleton.mp hv)
      rcases hvor with hv' | rfl
      · cases hget : dictGet (SortableDigraph.ensure_node
            (SortableDigraph.ensure_node g s) e).adj s with
        | none => rw [hget] at hv'; simp [keys] at hv'
        | some row =>
          rw [hget] at hv'
          exact hwf2.targets_nodes (s, row) (dictGet_eq_some_mem _ _ _ hget) v (by simpa using hv')
      · exact (SortableDigraph.mem_keys_ensure_node _ v v).mpr (Or.inr rfl)
    · exact hwf2.targets_nodes p hp'' v hv

/-! ### Acyclicity is preserved by cycle-guarded insertion -/

theorem hasEdge_empty (u v : α) : ¬ HasEdge (SortableDigraph.empty : Digraph α β) u v := by
  simp [HasEdge, SortableDigraph.successors, SortableDigraph.empty, dictGet, keys]

theorem acyclic_empty : Acyclic (SortableDigraph.empty : Digraph α β) := by
  intro x hx
  cases hx with
  | single h => exact hasEdge_empty _ _ h
  | tail _ h => exact hasEdge_empty _ _ h

theorem hasEdge_add_node_iff (g : Digraph α β) (n : α) (val : Option β) (u v : α) :
    HasEdge (SortableDigraph.add_node g n val) u v ↔ HasEdge g u v := by
  unfold HasEdge
  rw [SortableDigraph.successors_add_node]

/-- Splitting a walk that may use the freshly inserted edge `s → e`. -/
theorem reflTransGen_insert_decomp (r : α → α → Prop) (s e : α)
    (hne : ¬ Relation.ReflTransGen r e s) (a b : α)
    (h : Relation.ReflTransGen (fun u v => r u v ∨ (u = s ∧ v = e)) a b) :
    Relation.ReflTransGen r a b ∨
      (Relation.ReflTransGen r a s ∧ Relation.ReflTransGen r e b) := by
  induction h with
  | refl => exact Or.inl .refl
  | tail _ hbc ih =>
    rcases ih with ih | ⟨ih1, ih2⟩
    · rcases hbc with hcb | ⟨rfl, rfl⟩
      · exact Or.inl (ih.tail hcb)
      · exact Or.inr ⟨ih, .refl⟩
    · rcases hbc with hcb | ⟨rfl, rfl⟩
      · exact Or.inr ⟨ih1, ih2.tail hcb⟩
      · exact absurd ih2 hne

theorem acyclic_add_edge (g : Digraph α β) (s e : α) (w : Int)
    (hacyc : Acyclic g) (hne : ¬ Reaches g e s) :
    Acyclic (SortableDigraph.add_edge g s e w) := by
  intro x hx
  have hx' : Relation.TransGen (fun u v => HasEdge g u v ∨ (u = s ∧ v = e)) x x :=
    Relation.TransGen.mono
      (fun u v h => (SortableDigraph.hasEdge_add_edge_iff g s e w u v).mp h) hx
  rcases (Relation.TransGen.head'_iff).mp hx' with ⟨c, hxc, hcx⟩
  rcases hxc with hxc | ⟨rfl, rfl⟩
  · rcases reflTransGen_insert_decomp _ s e hne c x hcx with h | ⟨h1, h2⟩
    · exact hacyc x (Relation.TransGen.head' hxc h)
    · exact hne (((h2.tail hxc).trans h1))
  · rcases reflTransGen_insert_decomp _ x c hne c x hcx with h | ⟨h1, _⟩
    · exact hne h
    · exact hne h1

theorem applyDagOp_acyclic (g : Digraph α β) (op : DagOp α β) (h : Acyclic g) :
    Acyclic (applyDagOp g op) := by
  cases op with
  | addNode n v =>
    intro x hx
    exact h x (Relation.TransGen.mono
      (fun a b hab => (hasEdge_add_node_iff g n v a b).mp hab) hx)
  | addEdge s e w =>
    show Acyclic (match DAG.add_edge g s e w with | none => g | some g' => g')
    unfold DAG.add_edge
    by_cases hr : DAG.reachable g e s = true
    · rw [if_pos hr]
      exact h
    · rw [if_neg hr]
      refine acyclic_add_edge g s e w h ?_
      intro hreach
      exact hr ((DAG.reachable_iff g e s).mpr hreach)

/-- C2: starting from an empty `DAG`, after every sequence of `add_node` and
`add_edge` interface calls (a raising `add_edge` leaves the state untouched),
the transitive closure of the adjacency relation contains no cycle. -/
theorem dag_interface_acyclic_invariant (ops : List (DagOp α β)) :
    Acyclic (runDAG ops) := by
  suffices h : ∀ g : Digraph α β, Acyclic g → Acyclic (ops.foldl applyDagOp g) from
    h _ acyclic_empty
  induction ops with
  | nil => exact fun g h => h
  | cons op rest ih => exact fun g h => ih _ (applyDagOp_acyclic g op h)

/-- C3: `DAG.add_edge(start, end, w)` raises exactly when `start` is already
reachable from `end` (leaving the graph untouched — the embedded call
returns `none` before constructing any new state); otherwise it succeeds,
stores weight `w` on edge `start → end`, changes no other edge weight and
no node value. -/
theorem dag_add_edge_spec (g : Digraph α β) (s e : α) (w : Int) :
    (DAG.add_edge g s e w = none ↔ Reaches g e s) ∧
    (¬ Reaches g e s →
      DAG.add_edge g s e w = some (SortableDigraph.add_edge g s e w) ∧
      SortableDigraph.get_edge_weight (SortableDigraph.add_edge g s e w) s e = some w ∧
      (∀ a b : α, ¬(a = s ∧ b = e) →
        SortableDigraph.get_edge_weight (SortableDigraph.add_edge g s e w) a b =
          SortableDigraph.get_edge_weight g a b) ∧
      (SortableDigraph.add_edge g s e w).node_values = g.node_values) := by
  constructor
  · unfold DAG.add_edge
    by_cases hr : DAG.reachable g e s = true
    · rw [if_pos hr]
      simp [← DAG.reachable_iff g e s, hr]
    · rw [if_neg hr]
      simp only [reduceCtorEq, false_iff]
      intro hreach
      exact hr ((DAG.reachable_iff g e s).mpr hreach)
  · intro hne
    have hr : DAG.reachable g e s ≠ true := fun hr =>
      hne ((DAG.reachable_iff g e s).mp hr)
    refine ⟨by unfold DAG.add_edge; rw [if_neg hr],
      SortableDigraph.get_edge_weight_add_edge_self g s e w,
      fun a b hab => SortableDigraph.get_edge_weight_add_edge_frame g s e w a b hab,
      SortableDigraph.node_values_add_edge g s e w⟩



/-! ### Correctness of the DFS traversal -/

namespace TraversableDigraph

theorem dfsAux_nil (g : Digraph α β) (start : α) (fuel : Nat) (vis path out : List α) :
    dfsAux g start fuel vis [] path out = (vis, path, out) := by
  cases fuel <;> rfl

theorem dfsAux_spec (g : Digraph α β) (start : α) :
    ∀ (fuel : Nat) (vis stack path out : List α),
      stackMeasure g vis stack ≤ fuel →
      (∀ x, x ∈ vis ↔ x ∈ stack ∨ x ∈ path) →
      (stack ++ path).Nodup →
      (∀ x ∈ vis, Reaches g start x) →
      (∀ v ∈ vis, v ∈ stack ∨ (∀ w ∈ SortableDigraph.successors g v, w ∈ vis)) →
      out = path.filter (fun x => x ≠ start) →
      ∃ visF pathF,
        dfsAux g start fuel vis stack path out =
          (visF, pathF, pathF.filter (fun x => x ≠ start)) ∧
        (∀ x ∈ vis, x ∈ visF) ∧
        (∀ x, x ∈ visF ↔ x ∈ pathF) ∧
        pathF.Nodup ∧
        (∀ x ∈ visF, Reaches g start x) ∧
        (∀ v ∈ visF, ∀ w ∈ SortableDigraph.successors g v, w ∈ visF) := by
  intro fuel
  induction fuel with
  | zero =>
    intro vis stack path out hfuel hvis hnd hreach hexp hout
    have hstack : stack = [] := by
      unfold stackMeasure at hfuel
      cases stack with
      | nil => rfl
      | cons a b => rw [List.length_cons] at hfuel; omega
    subst hstack
    subst hout
    refine ⟨vis, path, rfl, fun x hx => hx, ?_, by simpa using hnd, hreach, ?_⟩
    · intro x; rw [hvis x]; simp
    · intro v hv w hw
      rcases hexp v hv with h | h
      · simp at h
      · exact h w hw
  | succ fuel ih =>
    intro vis stack path out hfuel hvis hnd hreach hexp hout
    cases stack with
    | nil =>
      subst hout
      refine ⟨vis, path, rfl, fun x hx => hx, ?_, by simpa using hnd, hreach, ?_⟩
      · intro x; rw [hvis x]; simp
      · intro v hv w hw
        rcases hexp v hv with h | h
        · simp at h
        · exact h w hw
    | cons node rest =>
      obtain ⟨L, h1, h2, h3, h4, h5⟩ :=
        pushUnvisited_spec (SortableDigraph.successors g node) vis rest
      have hLnames : ∀ x ∈ L, x ∈ allAdjNames g := fun x hx =>
        successors_subset_allAdjNames g node x (h4 x hx).1
      have hnode_vis : node ∈ vis := (hvis node).mpr (Or.inl (List.mem_cons_self _ _))
      have hnd' : node ∉ rest ++ path ∧ (rest ++ path).Nodup := by
        rw [List.cons_append, List.nodup_cons] at hnd
        exact hnd
      have hnode_path : node ∉ path := fun h => hnd'.1 (List.mem_append_right _ h)
      have hrp_vis : ∀ x, x ∈ rest ++ path → x ∈ vis := by
        intro x hx
        rcases List.mem_append.mp hx with hx | hx
        · exact (hvis x).mpr (Or.inl (List.mem_cons_of_mem _ hx))
        · exact (hvis x).mpr (Or.inr hx)
      have hout' : (if node ∉ path ∧ node ≠ start then out ++ [node] else out) =
          (path ++ [node]).filter (fun x => x ≠ start) := by
        rw [List.filter_append, ← hout]
        by_cases hns : node = start
        · simp [hns]
        · simp [hns, hnode_path]
      have hstep : dfsAux g start (fuel + 1) vis (node :: rest) path out =
          dfsAux g start fuel (L ++ vis) (L ++ rest) (path ++ [node])
            ((path ++ [node]).filter (fun x => x ≠ start)) := by
        rw [dfsAux, h1, h2, hout']
      have hmeas : stackMeasure g (L ++ vis) (L ++ rest) ≤ fuel := by
        unfold stackMeasure at hfuel ⊢
        have := length_filter_not_mem_append (allAdjNames g) L vis h3 hLnames
          (fun x hx => (h4 x hx).2)
        rw [List.length_cons] at hfuel
        rw [List.length_append]
        omega
      have hvis2 : ∀ x, x ∈ L ++ vis ↔ x ∈ L ++ rest ∨ x ∈ path ++ [node] := by
        intro x
        have h := hvis x
        simp only [List.mem_append, List.mem_cons, List.mem_singleton] at *
        tauto
      have hnd2 : ((L ++ rest) ++ (path ++ [node])).Nodup := by
        have hmid : ((L ++ rest) ++ (path ++ [node])).Perm
            (L ++ (rest ++ (path ++ [node]))) := by
          simp [List.append_assoc]
        have htail : (L ++ (rest ++ (path ++ [node]))).Perm
            (L ++ (node :: (rest ++ path))) := by
          refine List.Perm.append_left L ?_
          have hassoc : rest ++ (path ++ [node]) = (rest ++ path) ++ [node] := by
            simp [List.append_assoc]
          rw [hassoc]
          exact List.perm_append_singleton _ _
        have hperm := hmid.trans htail
        refine hperm.nodup_iff.mpr ?_
        rw [List.nodup_append]
        refine ⟨h3, ?_, ?_⟩
        · rw [List.nodup_cons]
          exact ⟨hnd'.1, hnd'.2⟩
        · intro x hxL hx2
          have hxvis : x ∈ vis := by
            rcases List.mem_cons.mp hx2 with rfl | hx2
            · exact hnode_vis
            · exact hrp_vis x hx2
          exact (h4 x hxL).2 hxvis
      have hreach2 : ∀ x ∈ L ++ vis, Reaches g start x := by
        intro x hx
        rcases List.mem_append.mp hx with hx | hx
        · exact (hreach node hnode_vis).tail (h4 x hx).1
        · exact hreach x hx
      have hexp2 : ∀ v ∈ L ++ vis,
          v ∈ L ++ rest ∨ (∀ w ∈ SortableDigraph.successors g v, w ∈ L ++ vis) := by
        intro v hv
        rcases List.mem_append.mp hv with hv | hv
        · exact Or.inl (List.mem_append_left _ hv)
        · rcases hexp v hv with h | h
          · rcases List.mem_cons.mp h with rfl | h
            · refine Or.inr ?_
              intro w hw
              rcases h5 w hw with hw' | hw'
              · exact List.mem_append_left _ hw'
              · exact List.mem_append_right _ hw'
            · exact Or.inl (List.mem_append_right _ h)
          · exact Or.inr fun w hw => List.mem_append_right _ (h w hw)
      obtain ⟨visF, pathF, heq, hmono, hiff, hndF, hreachF, hclF⟩ :=
        ih (L ++ vis) (L ++ rest) (path ++ [node])
          ((path ++ [node]).filter (fun x => x ≠ start))
          hmeas hvis2 hnd2 hreach2 hexp2 rfl
      refine ⟨visF, pathF, ?_, ?_, hiff, hndF, hreachF, hclF⟩
      · rw [hstep, heq]
      · exact fun x hx => hmono x (List.mem_append_right _ hx)

theorem successors_eq_nil_of_not_mem (g : Digraph α β) (s : α)
    (hs : s ∉ keys g.adj) : SortableDigraph.successors g s = [] := by
  unfold SortableDigraph.successors
  rw [(dictGet_eq_none_iff_not_mem_keys g.adj s).mpr hs]
  rfl

/-- The set-level specification of `dfs`: its output is duplicate-free and
contains exactly the nodes reachable from `start`, `start` itself excluded. -/
theorem dfs_set_spec (g : Digraph α β) (start : α) :
    (dfs g start).Nodup ∧
    (∀ v, v ∈ dfs g start ↔ (Reaches g start v ∧ v ≠ start)) := by
  obtain ⟨visF, pathF, heq, hmono, hiff, hndF, hreachF, hclF⟩ :=
    dfsAux_spec g start ((allAdjNames g).length + 1) [start] [start] [] []
      (by
        unfold stackMeasure
        have := List.length_filter_le (fun x => decide (x ∉ [start])) (allAdjNames g)
        simp only [List.length_singleton]
        omega)
      (by intro x; simp)
      (by simp)
      (by intro x hx; rcases List.mem_singleton.mp hx with rfl; exact .refl)
      (by intro v hv; exact Or.inl hv)
      rfl
  have hdfs : dfs g start = pathF.filter (fun x => x ≠ start) := by
    unfold dfs
    rw [heq]
  have hvisF : ∀ v, v ∈ visF ↔ Reaches g start v := by
    intro v
    constructor
    · exact hreachF v
    · intro hr
      exact reaches_mem_closed g (fun x => x ∈ visF) start v
        (hmono start (List.mem_singleton_self _)) (fun u v hu he => hclF u hu v he) hr
  constructor
  · rw [hdfs]; exact hndF.filter _
  · intro v
    rw [hdfs, List.mem_filter]
    constructor
    · rintro ⟨hv, hne⟩
      have hne' : v ≠ start := by simpa using hne
      exact ⟨(hvisF v).mp ((hiff v).mpr hv), hne'⟩
    · rintro ⟨hr, hne⟩
      refine ⟨(hiff v).mp ((hvisF v).mpr hr), by simpa using hne⟩

/-! ### Correctness of the BFS traversal -/

theorem bfsStep_spec (row vis queue out : List α) :
    ∃ L : List α,
      (bfsStep row vis queue out).1 = L.reverse ++ vis ∧
      (bfsStep row vis queue out).2.1 = queue ++ L ∧
      (bfsStep row vis queue out).2.2 = out ++ L ∧
      L.Nodup ∧
      (∀ x ∈ L, x ∈ row ∧ x ∉ vis) ∧
      (∀ x ∈ row, x ∈ L ∨ x ∈ vis) := by
  induction row generalizing vis queue out with
  | nil => exact ⟨[], rfl, by simp [bfsStep], by simp [bfsStep], List.nodup_nil, by simp, by simp⟩
  | cons n rest ih =>
    by_cases h : n ∈ vis
    · have hstep : bfsStep (n :: rest) vis queue out = bfsStep rest vis queue out := by
        simp [bfsStep, h]
      obtain ⟨L, h1, h2, h3, h4, h5, h6⟩ := ih vis queue out
      refine ⟨L, by rw [hstep]; exact h1, by rw [hstep]; exact h2, by rw [hstep]; exact h3,
        h4, ?_, ?_⟩
      · exact fun x hx => ⟨List.mem_cons_of_mem _ (h5 x hx).1, (h5 x hx).2⟩
      · intro x hx
        rcases List.mem_cons.mp hx with rfl | hx
        · exact Or.inr h
        · exact h6 x hx
    · have hstep : bfsStep (n :: rest) vis queue out =
          bfsStep rest (n :: vis) (queue ++ [n]) (out ++ [n]) := by
        simp [bfsStep, h]
      obtain ⟨L, h1, h2, h3, h4, h5, h6⟩ := ih (n :: vis) (queue ++ [n]) (out ++ [n])
      have hnL : n ∉ L := fun hn => (h5 n hn).2 (List.mem_cons_self n vis)
      refine ⟨n :: L, ?_, ?_, ?_, ?_, ?_, ?_⟩
      · rw [hstep, h1]; simp
      · rw [hstep, h2]; simp
      · rw [hstep, h3]; simp
      · exact List.nodup_cons.mpr ⟨hnL, h4⟩
      · intro x hx
        rcases List.mem_cons.mp hx with rfl | hx
        · exact ⟨List.mem_cons_self _ _, h⟩
        · obtain ⟨hxr, hxv⟩ := h5 x hx
          exact ⟨List.mem_cons_of_mem _ hxr, fun hh => hxv (List.mem_cons_of_mem _ hh)⟩
      · intro x hx
        rcases List.mem_cons.mp hx with rfl | hx
        · exact Or.inl (List.mem_cons_self _ _)
        · rcases h6 x hx with hx' | hx'
          · exact Or.inl (List.mem_cons_of_mem _ hx')
          · rcases List.mem_cons.mp hx' with rfl | hx'
            · exact Or.inl (List.mem_cons_self _ _)
            · exact Or.inr hx'

theorem bfsAux_nil (g : Digraph α β) (fuel : Nat) (vis out : List α) :
    bfsAux g fuel vis [] out = (vis, out) := by
  cases fuel <;> rfl

theorem bfsAux_spec (g : Digraph α β) (start : α) :
    ∀ (fuel : Nat) (vis queue out : List α),
      stackMeasure g vis queue ≤ fuel →
      (∀ x ∈ queue, x ∈ vis) →
      (∀ x ∈ vis, Reaches g start x) →
      (∀ v ∈ vis, v ∈ queue ∨ (∀ w ∈ SortableDigraph.successors g v, w ∈ vis)) →
      (∀ x, x ∈ vis ↔ x = start ∨ x ∈ out) →
      out.Nodup → start ∉ out →
      ∃ visF outF,
        bfsAux g fuel vis queue out = (visF, outF) ∧
        (∀ x ∈ vis, x ∈ visF) ∧
        (∀ x ∈ visF, Reaches g start x) ∧
        (∀ v ∈ visF, ∀ w ∈ SortableDigraph.successors g v, w ∈ visF) ∧
        (∀ x, x ∈ visF ↔ x = start ∨ x ∈ outF) ∧
        outF.Nodup ∧ start ∉ outF := by
  intro fuel
  induction fuel with
  | zero =>
    intro vis queue out hfuel hq hreach hexp hvo hnd hso
    have hqnil : queue = [] := by
      unfold stackMeasure at hfuel
      cases queue with
      | nil => rfl
      | cons a b => rw [List.length_cons] at hfuel; omega
    subst hqnil
    refine ⟨vis, out, rfl, fun x hx => hx, hreach, ?_, hvo, hnd, hso⟩
    intro v hv w hw
    rcases hexp v hv with h | h
    · simp at h
    · exact h w hw
  | succ fuel ih =>
    intro vis queue out hfuel hq hreach hexp hvo hnd hso
    cases queue with
    | nil =>
      refine ⟨vis, out, rfl, fun x hx => hx, hreach, ?_, hvo, hnd, hso⟩
      intro v hv w hw
      rcases hexp v hv with h | h
      · simp at h
      · exact h w hw
    | cons node rest =>
      obtain ⟨L, h1, h2, h3, h4, h5, h6⟩ :=
        bfsStep_spec (SortableDigraph.successors g node) vis rest out
      have hLnames : ∀ x ∈ L, x ∈ allAdjNames g := fun x hx =>
        successors_subset_allAdjNames g node x (h5 x hx).1
      have hnode_vis : node ∈ vis := hq node (List.mem_cons_self _ _)
      have hstep : bfsAux g (fuel + 1) vis (node :: rest) out =
          bfsAux g fuel (L.reverse ++ vis) (rest ++ L) (out ++ L) := by
        rw [bfsAux, h1, h2, h3]
      have hmemrev : ∀ x : α, x ∈ L.reverse ++ vis ↔ x ∈ L ∨ x ∈ vis := by
        intro x
        simp [List.mem_append]
      have hmeas : stackMeasure g (L.reverse ++ vis) (rest ++ L) ≤ fuel := by
        unfold stackMeasure at hfuel ⊢
        have hfc : (allAdjNames g).filter (fun x => x ∉ L.reverse ++ vis) =
            (allAdjNames g).filter (fun x => x ∉ L ++ vis) := by
          refine List.filter_congr ?_
          intro x _
          simp
        rw [hfc]
        have := length_filter_not_mem_append (allAdjNames g) L vis h4 hLnames
          (fun x hx => (h5 x hx).2)
        rw [List.length_cons] at hfuel
        rw [List.length_append]
        omega
      obtain ⟨visF, outF, heq, hmono, hreachF, hclF, hvoF, hndF, hsoF⟩ :=
        ih (L.reverse ++ vis) (rest ++ L) (out ++ L)
          hmeas
          (by
            intro x hx
            rcases List.mem_append.mp hx with hx | hx
            · exact (hmemrev x).mpr (Or.inr (hq x (List.mem_cons_of_mem _ hx)))
            · exact (hmemrev x).mpr (Or.inl hx))
          (by
            intro x hx
            rcases (hmemrev x).mp hx with hx | hx
            · exact (hreach node hnode_vis).tail (h5 x hx).1
            · exact hreach x hx)
          (by
            intro v hv
            rcases (hmemrev v).mp hv with hv | hv
            · exact Or.inl (List.mem_append_right _ hv)
            · rcases hexp v hv with h | h
              · rcases List.mem_cons.mp h with rfl | h
                · refine Or.inr ?_
                  intro w hw
                  rcases h6 w hw with hw' | hw'
                  · exact (hmemrev w).mpr (Or.inl hw')
                  · exact (hmemrev w).mpr (Or.inr hw')
                · exact Or.inl (List.mem_append_left _ h)
              · exact Or.inr fun w hw => (hmemrev w).mpr (Or.inr (h w hw)))
          (by
            intro x
            rw [hmemrev x]
            have h := hvo x
            simp only [List.mem_append] at *
            tauto)
          (by
            rw [List.nodup_append]
            refine ⟨hnd, h4, ?_⟩
            intro x hxo hxL
            exact (h5 x hxL).2 ((hvo x).mpr (Or.inr hxo)))
          (by
            intro h
            rcases List.mem_append.mp h with h | h
            · exact hso h
            · exact (h5 start h).2 ((hvo start).mpr (Or.inl rfl)))
      refine ⟨visF, outF, ?_, ?_, hreachF, hclF, hvoF, hndF, hsoF⟩
      · rw [hstep, heq]
      · exact fun x hx => hmono x ((hmemrev x).mpr (Or.inr hx))

/-- The set-level specification of `bfs`: its output is duplicate-free and
contains exactly the nodes reachable from `start`, `start` itself excluded. -/
theorem bfs_set_spec (g : Digraph α β) (start : α) :
    (bfs g start).Nodup ∧
    (∀ v, v ∈ bfs g start ↔ (Reaches g start v ∧ v ≠ start)) := by
  obtain ⟨visF, outF, heq, hmono, hreachF, hclF, hvoF, hndF, hsoF⟩ :=
    bfsAux_spec g start ((allAdjNames g).length + 1) [start] [start] []
      (by
        unfold stackMeasure
        have := List.length_filter_le (fun x => decide (x ∉ [start])) (allAdjNames g)
        simp only [List.length_singleton]
        omega)
      (by intro x hx; exact hx)
      (by intro x hx; rcases List.mem_singleton.mp hx with rfl; exact .refl)
      (by intro v hv; exact Or.inl hv)
      (by intro x; simp)
      List.nodup_nil
      (List.not_mem_nil _)
  have hbfs : bfs g start = outF := by
    unfold bfs
    rw [heq]
  have hvisF : ∀ v, v ∈ visF ↔ Reaches g start v := by
    intro v
    constructor
    · exact hreachF v
    · intro hr
      exact reaches_mem_closed g (fun x => x ∈ visF) start v
        (hmono start (List.mem_singleton_self _)) (fun u v hu he => hclF u hu v he) hr
  constructor
  · rw [hbfs]; exact hndF
  · intro v
    rw [hbfs]
    constructor
    · intro hv
      have hne : v ≠ start := fun h => hsoF (h ▸ hv)
      exact ⟨(hvisF v).mp ((hvoF v).mpr (Or.inr hv)), hne⟩
    · rintro ⟨hr, hne⟩
      rcases (hvoF v).mp ((hvisF v).mpr hr) with h | h
      · exact absurd h hne
      · exact h

end TraversableDigraph

/-- Reachability by at least one edge, with the endpoint distinct from the
start, is the same as plain reachability with that endpoint. -/
theorem reaches_ne_iff_reachesPlus (g : Digraph α β) (s v : α) :
    (Reaches g s v ∧ v ≠ s) ↔ (ReachesPlus g s v ∧ v ≠ s) := by
  unfold Reaches ReachesPlus
  constructor
  · rintro ⟨h, hne⟩
    rcases Relation.reflTransGen_iff_eq_or_transGen.mp h with rfl | h
    · exact absurd rfl hne
    · exact ⟨h, hne⟩
  · rintro ⟨h, hne⟩
    exact ⟨h.to_reflTransGen, hne⟩

/-- C5: for a start node present in the graph, `dfs(start)` and `bfs(start)`
each list, without duplicates, exactly the nodes reachable from `start` by
one or more edges, excluding `start` itself (even when `start` lies on a
cycle through itself). -/
theorem dfs_bfs_visit_exactly_reachable (g : Digraph α β) (s : α)
    (hs : s ∈ SortableDigraph.get_nodes g) :
    ((TraversableDigraph.dfs g s).Nodup ∧
      (∀ v, v ∈ TraversableDigraph.dfs g s ↔ (ReachesPlus g s v ∧ v ≠ s))) ∧
    ((TraversableDigraph.bfs g s).Nodup ∧
      (∀ v, v ∈ TraversableDigraph.bfs g s ↔ (ReachesPlus g s v ∧ v ≠ s))) := by
  obtain ⟨hd1, hd2⟩ := TraversableDigraph.dfs_set_spec g s
  obtain ⟨hb1, hb2⟩ := TraversableDigraph.bfs_set_spec g s
  exact ⟨⟨hd1, fun v => (hd2 v).trans (reaches_ne_iff_reachesPlus g s v)⟩,
    ⟨hb1, fun v => (hb2 v).trans (reaches_ne_iff_reachesPlus g s v)⟩⟩

/-- C9: when `start` is not a node of the graph, both traversals yield the
empty sequence (and, in the embedding, no error value exists to raise). -/
theorem dfs_bfs_absent_start_empty (g : Digraph α β) (s : α)
    (hs : s ∉ SortableDigraph.get_nodes g) :
    TraversableDigraph.dfs g s = [] ∧ TraversableDigraph.bfs g s = [] := by
  have hsucc : SortableDigraph.successors g s = [] :=
    TraversableDigraph.successors_eq_nil_of_not_mem g s hs
  constructor
  · show (TraversableDigraph.dfsAux g s ((allAdjNames g).length + 1) [s] [s] [] []).2.2 = []
    rw [TraversableDigraph.dfsAux, hsucc]
    simp only [pushUnvisited, List.foldl_nil]
    rw [TraversableDigraph.dfsAux_nil]
    simp
  · show (TraversableDigraph.bfsAux g ((allAdjNames g).length + 1) [s] [s] []).2 = []
    rw [TraversableDigraph.bfsAux, hsucc]
    simp only [TraversableDigraph.bfsStep, List.foldl_nil]
    rw [TraversableDigraph.bfsAux_nil]

/-- C8: `get_edge_weight(start, end)` returns a stored weight exactly when
the edge exists, and raises (`none`) exactly when `start` is not a node,
`end` is not a node, or no such edge is stored — never a silent default. -/
theorem get_edge_weight_spec (g : Digraph α β) (s e : α) (hwf : WF g) :
    ((SortableDigraph.get_edge_weight g s e).isSome = true ↔ HasEdge g s e) ∧
    (SortableDigraph.get_edge_weight g s e = none ↔
      (s ∉ SortableDigraph.get_nodes g ∨ e ∉ SortableDigraph.get_nodes g ∨
        ¬ HasEdge g s e)) := by
  have hiff : (SortableDigraph.get_edge_weight g s e).isSome = true ↔ HasEdge g s e := by
    unfold SortableDigraph.get_edge_weight HasEdge SortableDigraph.successors
    cases hget : dictGet g.adj s with
    | none => simp [keys]
    | some row =>
      simp only [Option.some_bind, Option.getD_some]
      exact dictGet_isSome_iff_mem_keys row e
  refine ⟨hiff, ?_⟩
  have hnone : SortableDigraph.get_edge_weight g s e = none ↔ ¬ HasEdge g s e := by
    rw [← hiff]
    cases SortableDigraph.get_edge_weight g s e <;> simp
  rw [hnone]
  constructor
  · intro h
    exact Or.inr (Or.inr h)
  · rintro (h | h | h)
    · intro hedge
      unfold HasEdge SortableDigraph.successors at hedge
      rcases hget : dictGet g.adj s with _ | row
      · rw [hget] at hedge; simp [keys] at hedge
      · exact h ((dictGet_isSome_iff_mem_keys g.adj s).mp (by rw [hget]; rfl))
    · exact fun hedge => h (hwf.edge_target_mem hedge)
    · exact h

/-- C10: `add_node(n, v)` followed by `add_node(n, None)` keeps the stored
value `v`: a `None` value argument never stores, clears or overwrites a
node value, and the second call leaves the value mapping untouched. -/
theorem add_node_none_preserves_value (g : Digraph α β) (n : α) (v : β) :
    SortableDigraph.get_node_value
      (SortableDigraph.add_node (SortableDigraph.add_node g n (some v)) n none) n = some v ∧
    (SortableDigraph.add_node (SortableDigraph.add_node g n (some v)) n none).node_values =
      (SortableDigraph.add_node g n (some v)).node_values := by
  constructor
  · show dictGet (SortableDigraph.add_node g n (some v)).node_values n = some v
    show dictGet (dictSet g.node_values n v) n = some v
    exact dictGet_dictSet_self _ _ _
  · rfl

theorem dag_add_edge_spec_witness :
    DAG.add_edge exChain "C" "A" (1 : Int) = none ∧
    DAG.add_edge exChain "A" "C" (1 : Int) =
      some (SortableDigraph.add_edge exChain "A" "C" 1) := by
  constructor
  · exact (dag_add_edge_spec exChain "C" "A" 1).1.mpr
      ((DAG.reachable_iff exChain "A" "C").mp (by decide))
  · exact ((dag_add_edge_spec exChain "A" "C" 1).2
      (fun hre => absurd ((DAG.reachable_iff exChain "C" "A").mpr hre) (by decide))).1

/-! ### Correctness of Kahn's algorithm (`top_sort`) -/

namespace SortableDigraph

theorem successors_nodup {g : Digraph α β} (hwf : WF g) (u : α) :
    (successors g u).Nodup := by
  unfold successors
  cases hget : dictGet g.adj u with
  | none => exact List.nodup_nil
  | some row => exact hwf.nodup_rows (u, row) (dictGet_eq_some_mem _ _ _ hget)

end SortableDigraph

theorem dictGet_eq_some_of_mem_nodup (d : List (α × γ)) (k : α) (v : γ)
    (hnd : (keys d).Nodup) (hmem : (k, v) ∈ d) : dictGet d k = some v := by
  induction d with
  | nil => simp at hmem
  | cons q rest ih =>
    obtain ⟨a, w⟩ := q
    rw [keys, List.map_cons, List.nodup_cons] at hnd
    rcases List.mem_cons.mp hmem with heq | hmem'
    · rw [Prod.mk.injEq] at heq
      obtain ⟨rfl, rfl⟩ := heq
      simp [dictGet]
    · by_cases ha : a = k
      · exfalso
        subst ha
        exact hnd.1 (List.mem_map.mpr ⟨(a, v), hmem', rfl⟩)
      · rw [dictGet, if_neg ha]
        exact ih hnd.2 hmem'

namespace SortableDigraph

theorem mem_predecessors_iff {g : Digraph α β} (hwf : WF g) (u v : α) :
    u ∈ predecessors g v ↔ HasEdge g u v := by
  constructor
  · intro hu
    unfold predecessors keys at hu
    rw [List.mem_map] at hu
    obtain ⟨p, hp, rfl⟩ := hu
    rw [List.mem_filter] at hp
    obtain ⟨hmem, hcond⟩ := hp
    have hget : dictGet g.adj p.1 = some p.2 :=
      dictGet_eq_some_of_mem_nodup g.adj p.1 p.2 hwf.nodup_nodes hmem
    show v ∈ successors g p.1
    unfold successors
    rw [hget]
    exact of_decide_eq_true hcond
  · intro hedge
    unfold HasEdge successors at hedge
    cases hget : dictGet g.adj u with
    | none => rw [hget] at hedge; simp [keys] at hedge
    | some row =>
      rw [hget] at hedge
      have hmem : (u, row) ∈ g.adj := dictGet_eq_some_mem _ _ _ hget
      unfold predecessors keys
      rw [List.mem_map]
      exact ⟨(u, row), List.mem_filter.mpr ⟨hmem, decide_eq_true hedge⟩, rfl⟩

theorem predecessors_nodup {g : Digraph α β} (hwf : WF g) (v : α) :
    (predecessors g v).Nodup := by
  unfold predecessors keys
  have hsub : ((g.adj.filter (fun p => v ∈ keys p.2)).map Prod.fst).Sublist
      (g.adj.map Prod.fst) := (List.filter_sublist _).map _
  exact hsub.nodup hwf.nodup_nodes

theorem indeg_row_fold (row : List α) (f : α → Int) (v : α) :
    (row.foldl (fun f2 u => fun x => if x = u then f2 u + 1 else f2 x) f) v =
      f v + (row.count v : Int) := by
  induction row generalizing f with
  | nil => simp
  | cons u rest ih =>
    rw [List.foldl_cons, ih]
    by_cases hv : v = u
    · subst hv
      rw [List.count_cons_self, if_pos rfl]
      push_cast
      ring
    · rw [List.count_cons_of_ne hv, if_neg hv]

theorem indeg0_outer_fold (l : List (α × List (α × Int))) (f : α → Int) (v : α) :
    (l.foldl (fun fa p =>
        (keys p.2).foldl (fun f2 u => fun x => if x = u then f2 u + 1 else f2 x) fa) f) v =
      f v + ((l.map (fun p => (keys p.2).count v)).sum : Int) := by
  induction l generalizing f with
  | nil => simp
  | cons p rest ih =>
    rw [List.foldl_cons, ih, indeg_row_fold, List.map_cons, List.sum_cons]
    push_cast
    ring

theorem sum_counts_eq_length_filter (l : List (α × List (α × Int)))
    (h : ∀ p ∈ l, (keys p.2).Nodup) (v : α) :
    (l.map (fun p => (keys p.2).count v)).sum =
      (l.filter (fun p => v ∈ keys p.2)).length := by
  induction l with
  | nil => simp
  | cons p rest ih =>
    have hp := h p (List.mem_cons_self _ _)
    have hrest := fun q hq => h q (List.mem_cons_of_mem _ hq)
    rw [List.map_cons, List.sum_cons, ih hrest, List.filter_cons]
    by_cases hv : v ∈ keys p.2
    · rw [List.count_eq_one_of_mem hp hv, if_pos (decide_eq_true hv), List.length_cons]
      omega
    · rw [List.count_eq_zero_of_not_mem hv, if_neg (by simpa using hv)]
      omega

theorem indeg0_eq {g : Digraph α β} (hwf : WF g) (v : α) :
    indeg0 g v = ((predecessors g v).length : Int) := by
  unfold indeg0
  rw [indeg0_outer_fold, sum_counts_eq_length_filter g.adj hwf.nodup_rows v]
  unfold predecessors keys
  rw [List.length_map]
  simp

theorem kahnFold_spec (row : List α) (hnd : row.Nodup) (indeg : α → Int)
    (queue : List α) :
    row.foldl (fun (q : (α → Int) × List α) v =>
        ((fun x => if x = v then q.1 v - 1 else q.1 x),
          if q.1 v - 1 = 0 then q.2 ++ [v] else q.2)) (indeg, queue) =
      ((fun x => if x ∈ row then indeg x - 1 else indeg x),
        queue ++ row.filter (fun v => indeg v = 1)) := by
  induction row generalizing indeg queue with
  | nil =>
    refine Prod.ext ?_ ?_
    · funext x; simp
    · simp
  | cons v vs ih =>
    rw [List.nodup_cons] at hnd
    obtain ⟨hv, hnd'⟩ := hnd
    rw [List.foldl_cons, ih hnd']
    refine Prod.ext ?_ ?_
    · funext x
      show (if x ∈ vs then (if x = v then indeg v - 1 else indeg x) - 1
          else (if x = v then indeg v - 1 else indeg x)) =
        if x ∈ v :: vs then indeg x - 1 else indeg x
      by_cases hxvs : x ∈ vs
      · have hxv : x ≠ v := fun h => hv (h ▸ hxvs)
        rw [if_pos hxvs, if_neg hxv, if_pos (List.mem_cons_of_mem _ hxvs)]
      · by_cases hxv : x = v
        · subst hxv
          rw [if_neg hxvs, if_pos rfl, if_pos (List.mem_cons_self _ _)]
        · rw [if_neg hxvs, if_neg hxv, if_neg (by simp [hxv, hxvs])]
    · show (if indeg v - 1 = 0 then queue ++ [v] else queue) ++
          vs.filter (fun x => (if x = v then indeg v - 1 else indeg x) = 1) =
        queue ++ (v :: vs).filter (fun x => indeg x = 1)
      have hfc : vs.filter (fun x => (if x = v then indeg v - 1 else indeg x) = 1) =
          vs.filter (fun x => indeg x = 1) := by
        refine List.filter_congr ?_
        intro x hx
        have hxv : x ≠ v := fun h => hv (h ▸ hx)
        simp [hxv]
      rw [hfc, List.filter_cons]
      by_cases h1 : indeg v = 1
      · rw [if_pos (by omega : indeg v - 1 = 0), if_pos (decide_eq_true h1)]
        simp
      · rw [if_neg (by omega : ¬ indeg v - 1 = 0), if_neg (by simpa using h1)]

theorem kahnStep_spec {g : Digraph α β} (hwf : WF g) (u : α) (indeg : α → Int)
    (queue : List α) :
    kahnStep g u (indeg, queue) =
      ((fun x => if x ∈ successors g u then indeg x - 1 else indeg x),
        queue ++ (successors g u).filter (fun v => indeg v = 1)) :=
  kahnFold_spec (successors g u) (successors_nodup hwf u) indeg queue

theorem kahnAux_nil (g : Digraph α β) (fuel : Nat) (indeg : α → Int) (order : List α) :
    kahnAux g fuel indeg [] order = order := by
  cases fuel <;> rfl

end SortableDigraph

/-- Decrementing the unprocessed-predecessor count when `u` is processed. -/
theorem length_filter_remove_one (l order : List α) (u : α) (hnd : l.Nodup)
    (hu : u ∈ l) (hno : u ∉ order) :
    (l.filter (fun x => x ∉ order ++ [u])).length + 1 =
      (l.filter (fun x => x ∉ order)).length := by
  induction l with
  | nil => simp at hu
  | cons a t ih =>
    rw [List.nodup_cons] at hnd
    rw [List.filter_cons, List.filter_cons]
    by_cases hau : a = u
    · subst hau
      have hcong : t.filter (fun x => x ∉ order ++ [a]) =
          t.filter (fun x => x ∉ order) := by
        refine List.filter_congr ?_
        intro x hx
        have hxa : x ≠ a := fun h => hnd.1 (h ▸ hx)
        simp [hxa]
      rw [if_neg (by simp), if_pos (by simpa using hno), hcong, List.length_cons]
    · have hut : u ∈ t := by
        rcases List.mem_cons.mp hu with h | h
        · exact absurd h.symm hau
        · exact h
      by_cases hao : a ∈ order
      · rw [if_neg (by simp [hao]), if_neg (by simpa using hao)]
        exact ih hnd.2 hut
      · rw [if_pos (by simp [hao, hau]), if_pos (by simpa using hao),
          List.length_cons, List.length_cons]
        have hih := ih hnd.2 hut
        omega



namespace SortableDigraph

/-- The state of `top_sort` once its queue has drained. -/
theorem kahn_final {g : Digraph α β} (hwf : WF g) (indeg : α → Int) (order : List α)
    (hnd : order.Nodup)
    (hsub : ∀ x ∈ order, x ∈ keys g.adj)
    (hB : ∀ v ∈ keys g.adj, indeg v =
      (((predecessors g v).filter (fun u => u ∉ order)).length : Int))
    (hC : ∀ v ∈ keys g.adj, (indeg v = 0 ↔ v ∈ order)) :
    ∀ v ∈ keys g.adj, (v ∈ order ↔ ∀ u ∈ predecessors g v, u ∈ order) := by
  intro v hv
  constructor
  · intro hvo u hu
    have h0 : indeg v = 0 := (hC v hv).mpr hvo
    rw [hB v hv] at h0
    have hlen : ((predecessors g v).filter (fun u => u ∉ order)).length = 0 := by
      exact_mod_cast h0
    rw [List.length_eq_zero] at hlen
    by_contra huo
    have : u ∈ (predecessors g v).filter (fun u => u ∉ order) :=
      List.mem_filter.mpr ⟨hu, decide_eq_true huo⟩
    rw [hlen] at this
    simp at this
  · intro hall
    refine (hC v hv).mp ?_
    rw [hB v hv]
    have hlen : (predecessors g v).filter (fun u => u ∉ order) = [] := by
      rw [List.filter_eq_nil]
      intro u hu
      simpa using hall u hu
    rw [hlen]
    simp

theorem kahnAux_spec {g : Digraph α β} (hwf : WF g) :
    ∀ (fuel : Nat) (indeg : α → Int) (queue order : List α),
      kahnMeasure g queue order ≤ fuel →
      (order ++ queue).Nodup →
      (∀ x ∈ order ++ queue, x ∈ keys g.adj) →
      (∀ v ∈ keys g.adj, indeg v =
        (((predecessors g v).filter (fun u => u ∉ order)).length : Int)) →
      (∀ v ∈ keys g.adj, (indeg v = 0 ↔ v ∈ order ++ queue)) →
      (∀ u v, HasEdge g u v → v ∈ order →
        ∃ o1 o2, order = o1 ++ o2 ∧ u ∈ o1 ∧ v ∈ o2) →
      (kahnAux g fuel indeg queue order).Nodup ∧
      (∀ x ∈ kahnAux g fuel indeg queue order, x ∈ keys g.adj) ∧
      (∀ v ∈ keys g.adj, (v ∈ kahnAux g fuel indeg queue order ↔
        ∀ u ∈ predecessors g v, u ∈ kahnAux g fuel indeg queue order)) ∧
      (∀ u v, HasEdge g u v → v ∈ kahnAux g fuel indeg queue order →
        ∃ o1 o2, kahnAux g fuel indeg queue order = o1 ++ o2 ∧ u ∈ o1 ∧ v ∈ o2) := by
  intro fuel
  induction fuel with
  | zero =>
    intro indeg queue order hfuel hnd hsub hB hC hE
    have hqnil : queue = [] := by
      unfold kahnMeasure at hfuel
      cases queue with
      | nil => rfl
      | cons a b => rw [List.length_cons] at hfuel; omega
    subst hqnil
    rw [kahnAux_nil]
    simp only [List.append_nil] at hnd hsub hC
    exact ⟨hnd, hsub, kahn_final hwf indeg order hnd hsub hB hC, hE⟩
  | succ fuel ih =>
    intro indeg queue order hfuel hnd hsub hB hC hE
    cases queue with
    | nil =>
      rw [kahnAux_nil]
      simp only [List.append_nil] at hnd hsub hC
      exact ⟨hnd, hsub, kahn_final hwf indeg order hnd hsub hB hC, hE⟩
    | cons u rest =>
      have hstep : kahnAux g (fuel + 1) indeg (u :: rest) order =
          kahnAux g fuel
            (fun x => if x ∈ successors g u then indeg x - 1 else indeg x)
            (rest ++ (successors g u).filter (fun v => indeg v = 1))
            (order ++ [u]) := by
        rw [kahnAux, kahnStep_spec hwf]
      set row := successors g u with hrow
      set newQ := row.filter (fun v => indeg v = 1) with hnewQ
      set indeg2 : α → Int := fun x => if x ∈ row then indeg x - 1 else indeg x with hindeg2
      -- basic facts about the processed node u
      have hu_mem : u ∈ order ++ u :: rest := by simp
      have hu_node : u ∈ keys g.adj := hsub u hu_mem
      have hnd_r : (order ++ [u] ++ rest).Nodup := by
        rw [List.append_assoc]
        exact hnd
      have hu_not_order : u ∉ order := by
        intro h
        rcases List.nodup_append.mp hnd with ⟨-, -, hdisj⟩
        exact hdisj h (List.mem_cons_self u rest)
      have hindeg_u : indeg u = 0 := (hC u hu_node).mpr hu_mem
      have hpreds_u : ∀ p ∈ predecessors g u, p ∈ order := by
        have h0 := hindeg_u
        rw [hB u hu_node] at h0
        have hlen : ((predecessors g u).filter (fun x => x ∉ order)).length = 0 := by
          exact_mod_cast h0
        rw [List.length_eq_zero] at hlen
        intro p hp
        by_contra hpo
        have : p ∈ (predecessors g u).filter (fun x => x ∉ order) :=
          List.mem_filter.mpr ⟨hp, decide_eq_true hpo⟩
        rw [hlen] at this
        simp at this
      have hrow_nodes : ∀ x ∈ row, x ∈ keys g.adj := fun x hx =>
        hwf.edge_target_mem (show x ∈ successors g u from hx)
      have hnewQ_nodes : ∀ x ∈ newQ, x ∈ keys g.adj := fun x hx =>
        hrow_nodes x (List.mem_of_mem_filter hx)
      have hrow_nd : row.Nodup := successors_nodup hwf u
      have hnewQ_nd : newQ.Nodup := hrow_nd.filter _
      -- members of newQ are fresh
      have hnewQ_fresh : ∀ x ∈ newQ, x ∉ order ++ u :: rest := by
        intro x hx
        have h1 : indeg x = 1 := by
          have := List.of_mem_filter hx
          exact of_decide_eq_true this
        intro hmem
        have h0 : indeg x = 0 := (hC x (hnewQ_nodes x hx)).mpr hmem
        rw [h1] at h0
        exact one_ne_zero h0
      -- nodup of the new state
      have hnd2 : ((order ++ [u]) ++ (rest ++ newQ)).Nodup := by
        have heq : (order ++ [u]) ++ (rest ++ newQ) = (order ++ [u] ++ rest) ++ newQ := by
          simp [List.append_assoc]
        rw [heq, List.nodup_append]
        refine ⟨hnd_r, hnewQ_nd, ?_⟩
        intro x hx hx'
        refine hnewQ_fresh x hx' ?_
        rw [List.append_assoc] at hx
        rcases List.mem_append.mp hx with h | h
        · exact List.mem_append_left _ h
        · refine List.mem_append_right _ ?_
          rcases List.mem_append.mp h with h | h
          · exact List.mem_cons.mpr (Or.inl (List.mem_singleton.mp h))
          · exact List.mem_cons_of_mem _ h
      have hsub2 : ∀ x ∈ (order ++ [u]) ++ (rest ++ newQ), x ∈ keys g.adj := by
        intro x hx
        rcases List.mem_append.mp hx with h | h
        · rcases List.mem_append.mp h with h | h
          · exact hsub x (List.mem_append_left _ h)
          · rcases List.mem_singleton.mp h with rfl
            exact hu_node
        · rcases List.mem_append.mp h with h | h
          · exact hsub x (List.mem_append_right _ (List.mem_cons_of_mem _ h))
          · exact hnewQ_nodes x h
      -- the in-degree bookkeeping invariant
      have hB2 : ∀ v ∈ keys g.adj, indeg2 v =
          (((predecessors g v).filter (fun x => x ∉ order ++ [u])).length : Int) := by
        intro v hv
        by_cases hvrow : v ∈ row
        · have hedge : HasEdge g u v := hvrow
          have hup : u ∈ predecessors g v := (mem_predecessors_iff hwf u v).mpr hedge
          have hrm := length_filter_remove_one (predecessors g v) order u
            (predecessors_nodup hwf v) hup hu_not_order
          have hold := hB v hv
          show (if v ∈ row then indeg v - 1 else indeg v) = _
          rw [if_pos hvrow, hold]
          push_cast
          omega
        · have hcong : (predecessors g v).filter (fun x => x ∉ order ++ [u]) =
              (predecessors g v).filter (fun x => x ∉ order) := by
            refine List.filter_congr ?_
            intro x hx
            have hxu : x ≠ u := by
              rintro rfl
              exact hvrow ((mem_predecessors_iff hwf x v).mp hx)
            simp [hxu]
          show (if v ∈ row then indeg v - 1 else indeg v) = _
          rw [if_neg hvrow, hcong]
          exact hB v hv
      -- the zero-iff-queued invariant
      have hC2 : ∀ v ∈ keys g.adj,
          (indeg2 v = 0 ↔ v ∈ (order ++ [u]) ++ (rest ++ newQ)) := by
        intro v hv
        have hmem_iff : v ∈ (order ++ [u]) ++ (rest ++ newQ) ↔
            (v ∈ order ++ u :: rest ∨ v ∈ newQ) := by
          simp only [List.mem_append, List.mem_cons, List.mem_singleton]
          tauto
        by_cases hvrow : v ∈ row
        · have hedge : HasEdge g u v := hvrow
          have hup : u ∈ predecessors g v := (mem_predecessors_iff hwf u v).mpr hedge
          have hpos : indeg v ≠ 0 := by
            rw [hB v hv]
            have hmemf : u ∈ (predecessors g v).filter (fun x => x ∉ order) :=
              List.mem_filter.mpr ⟨hup, decide_eq_true hu_not_order⟩
            have hlen : 0 < ((predecessors g v).filter (fun x => x ∉ order)).length :=
              List.length_pos.mpr (List.ne_nil_of_mem hmemf)
            intro hcontra
            rw [show ((0:Int) = ((0:Nat):Int)) from rfl] at hcontra
            have := Nat.cast_injective hcontra
            omega
          have hnot_old : v ∉ order ++ u :: rest := fun h => hpos ((hC v hv).mpr h)
          show (if v ∈ row then indeg v - 1 else indeg v) = 0 ↔ _
          rw [if_pos hvrow, hmem_iff]
          constructor
          · intro h
            have h1 : indeg v = 1 := by omega
            exact Or.inr (List.mem_filter.mpr ⟨hvrow, decide_eq_true h1⟩)
          · rintro (h | h)
            · exact absurd h hnot_old
            · have h1 : indeg v = 1 := by
                rw [hnewQ, List.mem_filter] at h
                exact of_decide_eq_true h.2
              omega
        · show (if v ∈ row then indeg v - 1 else indeg v) = 0 ↔ _
          rw [if_neg hvrow, hmem_iff]
          have hvnewQ : v ∉ newQ := fun h => hvrow (List.mem_of_mem_filter h)
          rw [hC v hv]
          constructor
          · exact Or.inl
          · rintro (h | h)
            · exact h
            · exact absurd h hvnewQ
      -- the precedence invariant
      have hE2 : ∀ a b, HasEdge g a b → b ∈ order ++ [u] →
          ∃ o1 o2, order ++ [u] = o1 ++ o2 ∧ a ∈ o1 ∧ b ∈ o2 := by
        intro a b hedge hb
        rcases List.mem_append.mp hb with hb | hb
        · obtain ⟨o1, o2, heq, ha, hbo⟩ := hE a b hedge hb
          exact ⟨o1, o2 ++ [u], by rw [heq, List.append_assoc], ha, List.mem_append_left _ hbo⟩
        · rcases List.mem_singleton.mp hb with rfl
          refine ⟨order, [b], rfl, ?_, List.mem_singleton_self b⟩
          exact hpreds_u a ((mem_predecessors_iff hwf a b).mpr hedge)
      -- the fuel bound
      have hfuel2 : kahnMeasure g (rest ++ newQ) (order ++ [u]) ≤ fuel := by
        unfold kahnMeasure at hfuel ⊢
        have hdrop := length_filter_not_mem_append (keys g.adj) newQ (order ++ u :: rest)
          hnewQ_nd hnewQ_nodes hnewQ_fresh
        have hcong : (keys g.adj).filter (fun x => x ∉ (order ++ [u]) ++ (rest ++ newQ)) =
            (keys g.adj).filter (fun x => x ∉ newQ ++ (order ++ u :: rest)) := by
          refine List.filter_congr ?_
          intro x _
          have : (x ∈ (order ++ [u]) ++ (rest ++ newQ)) ↔
              (x ∈ newQ ++ (order ++ u :: rest)) := by
            simp only [List.mem_append, List.mem_cons, List.mem_singleton]
            tauto
          simp only [decide_eq_decide]
          rw [this]
        rw [hcong]
        rw [List.length_cons] at hfuel
        rw [List.length_append]
        omega
      rw [hstep]
      exact ih indeg2 (rest ++ newQ) (order ++ [u]) hfuel2 hnd2 hsub2 hB2 hC2 hE2

theorem predecessors_subset_nodes (g : Digraph α β) (v : α) :
    ∀ u ∈ predecessors g v, u ∈ keys g.adj := by
  intro u hu
  unfold predecessors keys at hu
  show u ∈ g.adj.map Prod.fst
  rw [List.mem_map] at hu ⊢
  obtain ⟨p, hp, rfl⟩ := hu
  exact ⟨p, List.mem_of_mem_filter hp, rfl⟩

theorem length_filter_not_mem_filter (U : List α) (p : α → Bool) :
    (U.filter (fun x => x ∉ U.filter p)).length + (U.filter p).length ≤ U.length := by
  have h1 : (U.filter (fun x => x ∉ U.filter p)).length =
      U.countP (fun x => !p x) := by
    rw [← List.countP_eq_length_filter]
    refine List.countP_congr ?_
    intro x hx
    by_cases hp : p x = true
    · simp [List.mem_filter, hx, hp]
    · simp only [Bool.not_eq_true] at hp
      simp [List.mem_filter, hp]
  have h2 : (U.filter p).length = U.countP p := (List.countP_eq_length_filter p U).symm
  have h3 := countP_split U (fun _ => true) p
  have h4 : U.countP (fun _ => true) = U.length := congrFun List.countP_true U
  have h5 : U.countP (fun a => true && p a) = U.countP p := by
    refine List.countP_congr ?_
    intro x _
    simp
  have h6 : U.countP (fun a => true && !p a) = U.countP (fun a => !p a) := by
    refine List.countP_congr ?_
    intro x _
    simp
  omega

/-- Running `top_sort` from its initial state: the computed order is
duplicate-free, contains only nodes, contains a node exactly when it
contains all its predecessors, and lists every edge source before its
target. -/
theorem top_sort_run {g : Digraph α β} (hwf : WF g) :
    ∃ orderF : List α,
      top_sort g =
        (if orderF.length ≠ (keys g.adj).length then none else some orderF) ∧
      orderF.Nodup ∧
      (∀ x ∈ orderF, x ∈ keys g.adj) ∧
      (∀ v ∈ keys g.adj, (v ∈ orderF ↔ ∀ u ∈ predecessors g v, u ∈ orderF)) ∧
      (∀ u v, HasEdge g u v → v ∈ orderF →
        ∃ o1 o2, orderF = o1 ++ o2 ∧ u ∈ o1 ∧ v ∈ o2) := by
  have hmain := kahnAux_spec hwf ((keys g.adj).length + 1) (indeg0 g)
    ((keys g.adj).filter (fun u => indeg0 g u = 0)) []
    (by
      unfold kahnMeasure
      have hcong : (keys g.adj).filter
          (fun x => x ∉ [] ++ (keys g.adj).filter (fun u => indeg0 g u = 0)) =
        (keys g.adj).filter
          (fun x => x ∉ (keys g.adj).filter (fun u => indeg0 g u = 0)) := by
        refine List.filter_congr ?_
        intro x _
        simp
      rw [hcong]
      have := length_filter_not_mem_filter (keys g.adj) (fun u => decide (indeg0 g u = 0))
      omega)
    (by
      rw [List.nil_append]
      exact hwf.nodup_nodes.filter _)
    (by
      rw [List.nil_append]
      intro x hx
      exact List.mem_of_mem_filter hx)
    (by
      intro v hv
      have hcong : (predecessors g v).filter (fun u => u ∉ ([] : List α)) =
          predecessors g v := by
        refine List.filter_eq_self.mpr ?_
        intro x _
        simp
      rw [hcong]
      exact indeg0_eq hwf v)
    (by
      intro v hv
      rw [List.nil_append, List.mem_filter]
      constructor
      · intro h0
        exact ⟨hv, decide_eq_true h0⟩
      · intro h
        exact of_decide_eq_true h.2)
    (by
      intro u v _ hv
      simp at hv)
  refine ⟨kahnAux g ((keys g.adj).length + 1) (indeg0 g)
    ((keys g.adj).filter (fun u => indeg0 g u = 0)) [], rfl, hmain.1, hmain.2.1,
    hmain.2.2.1, hmain.2.2.2⟩

theorem indexOf_lt_of_append_split (o1 o2 : List α) (u v : α)
    (hnd : (o1 ++ o2).Nodup) (hu : u ∈ o1) (hv : v ∈ o2) :
    (o1 ++ o2).indexOf u < (o1 ++ o2).indexOf v := by
  have hvno1 : v ∉ o1 := by
    intro hv1
    rcases List.nodup_append.mp hnd with ⟨-, -, hdisj⟩
    exact hdisj hv1 hv
  rw [List.indexOf_append_of_mem hu, List.indexOf_append_of_not_mem hvno1]
  have := List.indexOf_lt_length.mpr hu
  omega

/-- Everything `top_sort` guarantees about a successfully returned order. -/
theorem top_sort_some_spec {g : Digraph α β} (hwf : WF g) (order : List α)
    (h : top_sort g = some order) :
    order.Perm (get_nodes g) ∧
    (∀ u v, HasEdge g u v → order.indexOf u < order.indexOf v) := by
  obtain ⟨orderF, heq, hnd, hsub, hcl, hsplit⟩ := top_sort_run hwf
  rw [heq] at h
  by_cases hlen : orderF.length ≠ (keys g.adj).length
  · rw [if_pos hlen] at h
    exact absurd h (by simp)
  · rw [if_neg hlen] at h
    rw [not_not] at hlen
    have horder : order = orderF := (Option.some.injEq _ _ ▸ h).symm
    subst horder
    have hperm : order.Perm (keys g.adj) :=
      (hnd.subperm hsub).perm_of_length_le (le_of_eq hlen.symm)
    refine ⟨hperm, ?_⟩
    intro u v hedge
    have hvkeys : v ∈ keys g.adj := hwf.edge_target_mem hedge
    have hvorder : v ∈ order := hperm.mem_iff.mpr hvkeys
    obtain ⟨o1, o2, hspl, hu1, hv2⟩ := hsplit u v hedge hvorder
    rw [hspl]
    exact indexOf_lt_of_append_split o1 o2 u v (hspl ▸ hnd) hu1 hv2

end SortableDigraph

/-- On an acyclic well-formed graph `top_sort` orders every node, so the
length check passes and no error is raised. -/
theorem top_sort_acyclic_some {g : Digraph α β} (hwf : WF g) (hacy : Acyclic g) :
    ∃ order : List α, SortableDigraph.top_sort g = some order := by
  obtain ⟨orderF, heq, hnd, hsub, hcl, -⟩ := SortableDigraph.top_sort_run hwf
  haveI hfin : Finite {v : α // v ∈ keys g.adj} := by
    have hfs : {v : α | v ∈ keys g.adj}.Finite := (keys g.adj).finite_toSet
    exact hfs.to_subtype
  have hmap : ∀ a b : {v : α // v ∈ keys g.adj},
      Relation.TransGen (fun a b : {v : α // v ∈ keys g.adj} => HasEdge g a.1 b.1) a b →
        ReachesPlus g a.1 b.1 := by
    intro a b h
    induction h with
    | single h => exact Relation.TransGen.single h
    | tail _ h ihh => exact ihh.tail h
  haveI : IsTrans {v : α // v ∈ keys g.adj}
      (Relation.TransGen (fun a b : {v : α // v ∈ keys g.adj} => HasEdge g a.1 b.1)) :=
    ⟨fun _ _ _ h1 h2 => h1.trans h2⟩
  haveI : IsIrrefl {v : α // v ∈ keys g.adj}
      (Relation.TransGen (fun a b : {v : α // v ∈ keys g.adj} => HasEdge g a.1 b.1)) :=
    ⟨fun a h => hacy a.1 (hmap a a h)⟩
  have hwfr : WellFounded (fun a b : {v : α // v ∈ keys g.adj} => HasEdge g a.1 b.1) := by
    have hsubrel : Subrelation (fun a b : {v : α // v ∈ keys g.adj} => HasEdge g a.1 b.1)
        (Relation.TransGen (fun a b : {v : α // v ∈ keys g.adj} => HasEdge g a.1 b.1)) :=
      fun h => Relation.TransGen.single h
    exact hsubrel.wf (Finite.wellFounded_of_trans_of_irrefl _)
  have hall : ∀ p : {v : α // v ∈ keys g.adj}, p.1 ∈ orderF := by
    intro p
    refine hwfr.induction (C := fun q => q.1 ∈ orderF) p ?_
    intro x ihx
    refine (hcl x.1 x.2).mpr ?_
    intro u hu
    have hedge : HasEdge g u x.1 := (SortableDigraph.mem_predecessors_iff hwf u x.1).mp hu
    have hukeys : u ∈ keys g.adj := SortableDigraph.predecessors_subset_nodes g x.1 u hu
    exact ihx ⟨u, hukeys⟩ hedge
  have hsup : ∀ x ∈ keys g.adj, x ∈ orderF := fun x hx => hall ⟨x, hx⟩
  have hlen : orderF.length = (keys g.adj).length := by
    have h1 : orderF.length ≤ (keys g.adj).length := (hnd.subperm hsub).length_le
    have h2 : (keys g.adj).length ≤ orderF.length := (hwf.nodup_nodes.subperm hsup).length_le
    omega
  exact ⟨orderF, by rw [heq, if_neg (not_ne_iff.mpr hlen)]⟩

/-- C1: whenever `top_sort` returns without raising, the returned list is a
permutation of `get_nodes()` and, for every stored edge `u → v`, `u`
appears strictly before `v` in it. -/
theorem top_sort_topological_order {g : Digraph α β} (order : List α) (hwf : WF g)
    (h : SortableDigraph.top_sort g = some order) :
    order.Perm (SortableDigraph.get_nodes g) ∧
    (∀ u v, HasEdge g u v → order.indexOf u < order.indexOf v) :=
  SortableDigraph.top_sort_some_spec hwf order h

/-- C4: `top_sort` raises exactly when the graph has a directed cycle, and
the embedded error case (`none`) carries no partial ordering at all. -/
theorem top_sort_none_iff_cycle {g : Digraph α β} (hwf : WF g) :
    (SortableDigraph.top_sort g = none ↔ ∃ x, ReachesPlus g x x) := by
  constructor
  · intro hnone
    by_contra hnocycle
    push_neg at hnocycle
    have hacy : Acyclic g := fun x hx => hnocycle x hx
    obtain ⟨order, hsome⟩ := top_sort_acyclic_some hwf hacy
    rw [hnone] at hsome
    exact Option.noConfusion hsome
  · rintro ⟨x, hx⟩
    cases hts : SortableDigraph.top_sort g with
    | none => rfl
    | some order =>
      exfalso
      obtain ⟨-, hmono⟩ := SortableDigraph.top_sort_some_spec hwf order hts
      have hlt : ∀ a b, ReachesPlus g a b → order.indexOf a < order.indexOf b := by
        intro a b h
        induction h with
        | single h => exact hmono _ _ h
        | tail _ h ihh => exact lt_trans ihh (hmono _ _ h)
      exact lt_irrefl _ (hlt x x hx)

/-- C7: `top_sort` processes zero-in-degree nodes in FIFO order — the queue
is seeded from the in-degree dict in node insertion order and successors
are appended in discovery order (this discipline is the definition of
`kahnAux`); on the diamond built by adding edges A→B, A→C, B→D, C→D the
result is exactly [A, B, C, D]. -/
theorem top_sort_diamond_scenario :
    SortableDigraph.top_sort exDiamond = some ["A", "B", "C", "D"] := by
  decide

/-! ### BFS emits nodes in nondecreasing hop distance -/

theorem distLe_mono (g : Digraph α β) (s v : α) {n m : Nat} (h : DistLe g s v n)
    (hnm : n ≤ m) : DistLe g s v m := by
  obtain ⟨k, hk, hp⟩ := h
  exact ⟨k, le_trans hk hnm, hp⟩

theorem pathLen_snoc (g : Digraph α β) :
    ∀ (n : Nat) (s w : α), PathLen g s w (n + 1) →
      ∃ a, PathLen g s a n ∧ HasEdge g a w := by
  intro n
  induction n with
  | zero =>
    intro s w h
    cases h with
    | step hedge htail =>
      cases htail
      exact ⟨s, .refl s, hedge⟩
  | succ m ihm =>
    intro s w h
    cases h with
    | step hedge htail =>
      obtain ⟨a, hp, he⟩ := ihm _ _ htail
      exact ⟨a, .step hedge hp, he⟩

theorem pathLen_append_edge (g : Digraph α β) {s a : α} {n : Nat}
    (h : PathLen g s a n) {w : α} (hw : HasEdge g a w) : PathLen g s w (n + 1) := by
  induction h with
  | refl u => exact .step hw (.refl w)
  | step h1 _ ihh => exact .step h1 (ihh hw)

theorem hopLe_refl (g : Digraph α β) (s a : α) : HopLe g s a a := fun _ h => h

theorem hopSuccLe_self (g : Digraph α β) (s a : α) : HopSuccLe g s a a :=
  fun n h => distLe_mono g s a h (Nat.le_succ n)

/-- An edge `u → w` bounds the distance of `w` by that of `u` plus one. -/
theorem hopSuccLe_of_edge (g : Digraph α β) (s u w : α) (hedge : HasEdge g u w) :
    HopSuccLe g s w u := by
  rintro n ⟨m, hm, hp⟩
  exact ⟨m + 1, by omega, pathLen_append_edge g hp hedge⟩

theorem hopLe_of_hopLt (g : Digraph α β) (s a b : α) (h : HopLt g s a b) :
    HopLe g s a b := by
  intro n hb
  obtain ⟨m, hm, ha⟩ := h n hb
  exact distLe_mono g s a ha (le_of_lt hm)

/-- `dist o ≤ dist u + 1 ≤ dist w` composes to `dist o ≤ dist w`. -/
theorem hopLe_of_succLe_lt (g : Digraph α β) (s o u w : α)
    (h1 : HopSuccLe g s o u) (h2 : HopLt g s u w) : HopLe g s o w := by
  intro n hw
  obtain ⟨m, hm, hu⟩ := h2 n hw
  exact distLe_mono g s o (h1 m hu) (by omega)

/-- `dist o ≤ dist u + 1` and `dist u ≤ dist w` compose to
`dist o ≤ dist w + 1`. -/
theorem hopSuccLe_of_succLe_le (g : Digraph α β) (s o u w : α)
    (h1 : HopSuccLe g s o u) (h2 : HopLe g s u w) : HopSuccLe g s o w :=
  fun n hw => h1 n (h2 n hw)

/-- Any node not yet visited lies strictly farther from `s` than the queue
head `u`: every path to it must leave the visited set through a queued
node, and `u` has the least distance in the queue. -/
theorem bfs_far (g : Digraph α β) (s u : α) (vis queue : List α)
    (hs : s ∈ vis)
    (hcl : ∀ a ∈ vis, a ∉ u :: queue → ∀ b ∈ SortableDigraph.successors g a, b ∈ vis)
    (hmin : ∀ a ∈ u :: queue, HopLe g s u a) :
    ∀ n, ∀ w ∉ vis, PathLen g s w n → ∃ m, m < n ∧ DistLe g s u m := by
  intro n
  induction n using Nat.strong_induction_on with
  | _ n ihn =>
    intro w hw hpath
    match n, hpath with
    | 0, hpath =>
      cases hpath
      exact absurd hs hw
    | (m + 1), hpath =>
      obtain ⟨a, hpa, hedge⟩ := pathLen_snoc g m s w hpath
      by_cases haV : a ∈ vis
      · by_cases haQ : a ∈ u :: queue
        · have hda : DistLe g s a m := ⟨m, le_refl m, hpa⟩
          exact ⟨m, by omega, hmin a haQ m hda⟩
        · exact absurd (hcl a haV haQ w hedge) hw
      · obtain ⟨m', hm', hd⟩ := ihn m (by omega) a haV hpa
        exact ⟨m', by omega, hd⟩

/-- The queue/output invariant of `bfs` that yields the
shortest-hop-count-first emission order. -/
theorem bfsAux_level (g : Digraph α β) (s : α) :
    ∀ (fuel : Nat) (vis queue out : List α),
      stackMeasure g vis queue ≤ fuel →
      (∀ x ∈ queue, x ∈ vis) →
      s ∈ vis →
      (∀ v ∈ vis, v ∈ queue ∨ (∀ w ∈ SortableDigraph.successors g v, w ∈ vis)) →
      List.Pairwise (HopLe g s) queue →
      (∀ a ∈ queue, ∀ b ∈ queue, HopSuccLe g s a b) →
      List.Pairwise (HopLe g s) out →
      (∀ o ∈ out, ∀ q ∈ queue, HopSuccLe g s o q) →
      List.Pairwise (HopLe g s) (TraversableDigraph.bfsAux g fuel vis queue out).2 := by
  intro fuel
  induction fuel with
  | zero =>
    intro vis queue out hfuel hq hs hcl hqsort hqspread hosort hoq
    have hqnil : queue = [] := by
      unfold stackMeasure at hfuel
      cases queue with
      | nil => rfl
      | cons a b => rw [List.length_cons] at hfuel; omega
    subst hqnil
    rw [TraversableDigraph.bfsAux_nil]
    exact hosort
  | succ fuel ih =>
    intro vis queue out hfuel hq hs hcl hqsort hqspread hosort hoq
    cases queue with
    | nil =>
      rw [TraversableDigraph.bfsAux_nil]
      exact hosort
    | cons u rest =>
      obtain ⟨L, h1, h2, h3, h4, h5, h6⟩ :=
        TraversableDigraph.bfsStep_spec (SortableDigraph.successors g u) vis rest out
      have hLnames : ∀ x ∈ L, x ∈ allAdjNames g := fun x hx =>
        successors_subset_allAdjNames g u x (h5 x hx).1
      have hstep : TraversableDigraph.bfsAux g (fuel + 1) vis (u :: rest) out =
          TraversableDigraph.bfsAux g fuel (L.reverse ++ vis) (rest ++ L) (out ++ L) := by
        rw [TraversableDigraph.bfsAux, h1, h2, h3]
      have hmemrev : ∀ x : α, x ∈ L.reverse ++ vis ↔ x ∈ L ∨ x ∈ vis := by
        intro x
        simp [List.mem_append]
      -- distance facts for the nodes discovered while expanding u
      have hmin : ∀ a ∈ u :: rest, HopLe g s u a := by
        intro a ha
        rcases List.mem_cons.mp ha with rfl | ha
        · exact hopLe_refl g s a
        · exact (List.pairwise_cons.mp hqsort).1 a ha
      have hfar : ∀ w, w ∉ vis → HopLt g s u w := by
        intro w hw
        rintro n ⟨k, hk, hp⟩
        obtain ⟨m, hm, hd⟩ := bfs_far g s u vis rest hs
          (fun a haV haQ b hb => ((hcl a haV).resolve_left haQ) b hb) hmin k w hw hp
        exact ⟨m, by omega, hd⟩
      have hX1 : ∀ w ∈ L, HopSuccLe g s w u := fun w hw =>
        hopSuccLe_of_edge g s u w (h5 w hw).1
      have hX2 : ∀ w ∈ L, HopLt g s u w := fun w hw => hfar w (h5 w hw).2
      have hLe_uL : ∀ w ∈ L, HopLe g s u w := fun w hw =>
        hopLe_of_hopLt g s u w (hX2 w hw)
      have hSq_u : ∀ q ∈ rest, HopSuccLe g s q u := fun q hq' =>
        hqspread q (List.mem_cons_of_mem _ hq') u (List.mem_cons_self _ _)
      -- sortedness of the new queue
      have hqsort2 : List.Pairwise (HopLe g s) (rest ++ L) := by
        rw [List.pairwise_append]
        refine ⟨(List.pairwise_cons.mp hqsort).2, ?_, ?_⟩
        · refine List.pairwise_iff_forall_sublist.mpr ?_
          intro a b hab
          have ha : a ∈ L := hab.subset (List.mem_cons_self _ _)
          have hb : b ∈ L := hab.subset (List.mem_cons_of_mem _ (List.mem_singleton_self _))
          exact hopLe_of_succLe_lt g s a u b (hX1 a ha) (hX2 b hb)
        · intro a ha w hw
          exact hopLe_of_succLe_lt g s a u w (hSq_u a ha) (hX2 w hw)
      -- bounded spread of the new queue
      have hqspread2 : ∀ a ∈ rest ++ L, ∀ b ∈ rest ++ L, HopSuccLe g s a b := by
        intro a ha b hb
        rcases List.mem_append.mp ha with ha | ha
        · rcases List.mem_append.mp hb with hb | hb
          · exact hqspread a (List.mem_cons_of_mem _ ha) b (List.mem_cons_of_mem _ hb)
          · exact hopSuccLe_of_succLe_le g s a u b (hSq_u a ha) (hLe_uL b hb)
        · rcases List.mem_append.mp hb with hb | hb
          · exact hopSuccLe_of_succLe_le g s a u b (hX1 a ha)
              (hmin b (List.mem_cons_of_mem _ hb))
          · exact hopSuccLe_of_succLe_le g s a u b (hX1 a ha) (hLe_uL b hb)
      -- sortedness of the extended output
      have hosort2 : List.Pairwise (HopLe g s) (out ++ L) := by
        rw [List.pairwise_append]
        refine ⟨hosort, ?_, ?_⟩
        · refine List.pairwise_iff_forall_sublist.mpr ?_
          intro a b hab
          have ha : a ∈ L := hab.subset (List.mem_cons_self _ _)
          have hb : b ∈ L := hab.subset (List.mem_cons_of_mem _ (List.mem_singleton_self _))
          exact hopLe_of_succLe_lt g s a u b (hX1 a ha) (hX2 b hb)
        · intro o ho w hw
          exact hopLe_of_succLe_lt g s o u w (hoq o ho u (List.mem_cons_self _ _)) (hX2 w hw)
      -- output-to-queue spread
      have hoq2 : ∀ o ∈ out ++ L, ∀ q ∈ rest ++ L, HopSuccLe g s o q := by
        intro o ho q hq'
        rcases List.mem_append.mp ho with ho | ho
        · rcases List.mem_append.mp hq' with hq' | hq'
          · exact hoq o ho q (List.mem_cons_of_mem _ hq')
          · exact hopSuccLe_of_succLe_le g s o u q
              (hoq o ho u (List.mem_cons_self _ _)) (hLe_uL q hq')
        · rcases List.mem_append.mp hq' with hq' | hq'
          · exact hopSuccLe_of_succLe_le g s o u q (hX1 o ho)
              (hmin q (List.mem_cons_of_mem _ hq'))
          · exact hopSuccLe_of_succLe_le g s o u q (hX1 o ho) (hLe_uL q hq')
      -- plumbing invariants
      have hmeas : stackMeasure g (L.reverse ++ vis) (rest ++ L) ≤ fuel := by
        unfold stackMeasure at hfuel ⊢
        have hfc : (allAdjNames g).filter (fun x => x ∉ L.reverse ++ vis) =
            (allAdjNames g).filter (fun x => x ∉ L ++ vis) := by
          refine List.filter_congr ?_
          intro x _
          simp
        rw [hfc]
        have := length_filter_not_mem_append (allAdjNames g) L vis h4 hLnames
          (fun x hx => (h5 x hx).2)
        rw [List.length_cons] at hfuel
        rw [List.length_append]
        omega
      rw [hstep]
      refine ih (L.reverse ++ vis) (rest ++ L) (out ++ L) hmeas ?_ ?_ ?_
        hqsort2 hqspread2 hosort2 hoq2
      · intro x hx
        rcases List.mem_append.mp hx with hx | hx
        · exact (hmemrev x).mpr (Or.inr (hq x (List.mem_cons_of_mem _ hx)))
        · exact (hmemrev x).mpr (Or.inl hx)
      · exact (hmemrev s).mpr (Or.inr hs)
      · intro v hv
        rcases (hmemrev v).mp hv with hv | hv
        · exact Or.inl (List.mem_append_right _ hv)
        · rcases hcl v hv with h | h
          · rcases List.mem_cons.mp h with rfl | h
            · refine Or.inr ?_
              intro w hw
              rcases h6 w hw with hw' | hw'
              · exact (hmemrev w).mpr (Or.inl hw')
              · exact (hmemrev w).mpr (Or.inr hw')
            · exact Or.inl (List.mem_append_left _ h)
          · exact Or.inr fun w hw => (hmemrev w).mpr (Or.inr (h w hw))

/-- C6: `bfs` emits nodes in FIFO queue order over each node's adjacency
iteration order (this discipline is the definition of `bfsAux`/`bfsStep`),
so hop distances from `start` are nondecreasing along the output; on the
diamond built by adding edges A→B, A→C, B→D, C→D the output is exactly
[B, C, D]. -/
theorem bfs_hop_order_and_scenario :
    (∀ {α' β' : Type} [DecidableEq α'] (g : Digraph α' β') (s : α'),
      List.Pairwise (HopLe g s) (TraversableDigraph.bfs g s)) ∧
    TraversableDigraph.bfs exDiamond "A" = ["B", "C", "D"] := by
  constructor
  · intro α' β' _ g s
    refine bfsAux_level g s ((allAdjNames g).length + 1) [s] [s] []
      ?_ ?_ (List.mem_singleton_self s) ?_ ?_ ?_ List.Pairwise.nil ?_
    · unfold stackMeasure
      have := List.length_filter_le (fun x => decide (x ∉ [s])) (allAdjNames g)
      simp only [List.length_singleton]
      omega
    · intro x hx; exact hx
    · intro v hv; exact Or.inl hv
    · exact List.pairwise_singleton _ _
    · intro a ha b hb
      rw [List.mem_singleton] at ha hb
      subst ha
      subst hb
      exact hopSuccLe_self _ _ _
    · intro o ho; simp at ho
  · decide



theorem top_sort_topological_order_witness :
    (["A", "B", "C", "D"] : List String).Perm (SortableDigraph.get_nodes exDiamond) ∧
    (∀ u v, HasEdge exDiamond u v →
      (["A", "B", "C", "D"] : List String).indexOf u <
        (["A", "B", "C", "D"] : List String).indexOf v) :=
  top_sort_topological_order ["A", "B", "C", "D"] (by decide) (by decide)

theorem top_sort_none_iff_cycle_witness :
    (SortableDigraph.top_sort exCycle = none ↔ ∃ x, ReachesPlus exCycle x x) :=
  top_sort_none_iff_cycle (by decide)

theorem dfs_bfs_visit_exactly_reachable_witness :
    "A" ∈ SortableDigraph.get_nodes exDiamond ∧
    (((TraversableDigraph.dfs exDiamond "A").Nodup ∧
      (∀ v, v ∈ TraversableDigraph.dfs exDiamond "A" ↔
        (ReachesPlus exDiamond "A" v ∧ v ≠ "A"))) ∧
    ((TraversableDigraph.bfs exDiamond "A").Nodup ∧
      (∀ v, v ∈ TraversableDigraph.bfs exDiamond "A" ↔
        (ReachesPlus exDiamond "A" v ∧ v ≠ "A")))) :=
  ⟨by decide, dfs_bfs_visit_exactly_reachable exDiamond "A" (by decide)⟩

theorem dfs_bfs_absent_start_empty_witness :
    "X" ∉ SortableDigraph.get_nodes exDiamond ∧
    TraversableDigraph.dfs exDiamond "X" = [] ∧
    TraversableDigraph.bfs exDiamond "X" = [] :=
  ⟨by decide, dfs_bfs_absent_start_empty exDiamond "X" (by decide)⟩

theorem get_edge_weight_spec_witness :
    WF exDiamond ∧
    (((SortableDigraph.get_edge_weight exDiamond "X" "Y").isSome = true ↔
      HasEdge exDiamond "X" "Y") ∧
    (SortableDigraph.get_edge_weight exDiamond "X" "Y" = none ↔
      ("X" ∉ SortableDigraph.get_nodes exDiamond ∨
        "Y" ∉ SortableDigraph.get_nodes exDiamond ∨
        ¬ HasEdge exDiamond "X" "Y"))) :=
  ⟨by decide, get_edge_weight_spec exDiamond "X" "Y" (by decide)⟩

end StudentCode
